import Mathlib

/-!
# tarutil: unpacking a layer tar stream

A shallow embedding of `tarutil.go` (package `tarutils`).  Strings are lists of
characters, instants are integers (nanoseconds since the Unix epoch), and every
call into the operating system goes through a record `OS σ` of operations on an
abstract filesystem state `σ`.  An operation returns the new state together
with `none` (success) or `some e` (the error), so that a failed call may still
have changed the state.  `filepath.Walk` recurses over the directory tree and
is given fuel: `none` at the outer `Option` means the fuel ran out.
-/

namespace Tarutil

/-! ## Strings and `path/filepath` -/

abbrev Path := List Char

/-- The pieces of `s` between slashes, as `strings.Split(s, "/")`. -/
def splitSlash : List Char → List (List Char)
  | [] => [[]]
  | c :: cs =>
    if c = '/' then [] :: splitSlash cs
    else
      match splitSlash cs with
      | [] => [[c]]
      | p :: ps => (c :: p) :: ps

/-- One element of a path read by `filepath.Clean`; the stack holds the
elements written so far, last one first. -/
def cleanStep (rooted : Bool) (stack : List (List Char)) (seg : List Char) :
    List (List Char) :=
  if seg = [] ∨ seg = ['.'] then stack
  else if seg = ['.', '.'] then
    match stack with
    | [] => if rooted then [] else [seg]
    | top :: rest => if top = ['.', '.'] then seg :: stack else rest
  else seg :: stack

/-- The elements `filepath.Clean` keeps, in order. -/
def cleanSegs (rooted : Bool) (segs : List (List Char)) : List (List Char) :=
  (segs.foldl (cleanStep rooted) []).reverse

/-- Elements joined with single slashes. -/
def joinSlash : List (List Char) → List Char
  | [] => []
  | [s] => s
  | s :: t :: rest => s ++ '/' :: joinSlash (t :: rest)

def isRooted (s : List Char) : Bool :=
  match s with
  | '/' :: _ => true
  | _ => false

/-- The function `filepath.Clean` (Unix). -/
def Clean (s : List Char) : List Char :=
  let out := (if isRooted s then ['/'] else []) ++ joinSlash (cleanSegs (isRooted s) (splitSlash s))
  if out = [] then ['.'] else out

/-- The function `filepath.Join` for two elements: empty elements are ignored,
the rest joined by a slash and cleaned; the result is empty when both are. -/
def Join (a b : List Char) : List Char :=
  if a = [] then (if b = [] then [] else Clean b)
  else if b = [] then Clean a
  else Clean (a ++ '/' :: b)

/-- The part of `s` up to and including its last slash (empty without one). -/
def uptoLastSlash : List Char → List Char
  | [] => []
  | c :: cs =>
    if c = '/' ∨ '/' ∈ cs then c :: uptoLastSlash cs else []

/-- The part of `s` after its last slash (all of `s` without one). -/
def afterLastSlash : List Char → List Char
  | [] => []
  | c :: cs => if '/' ∈ cs then afterLastSlash cs else if c = '/' then cs else c :: cs

/-- The function `filepath.Dir` (Unix). -/
def Dir (s : List Char) : List Char := Clean (uptoLastSlash s)

/-- Drops the trailing slashes of `s`. -/
def stripTrailingSlashes (s : List Char) : List Char :=
  (s.reverse.dropWhile (fun c => c = '/')).reverse

/-- The function `filepath.Base` (Unix). -/
def Base (s : List Char) : List Char :=
  if s = [] then ['.']
  else
    let t := afterLastSlash (stripTrailingSlashes s)
    if t = [] then ['/'] else t

/-- The function `strings.HasPrefix`. -/
def HasPrefix (s pre : List Char) : Bool := pre.isPrefixOf s

def whiteoutPrefix : List Char := ['.', 'w', 'h', '.']
def whiteoutMetaPrefix : List Char := whiteoutPrefix ++ whiteoutPrefix
def whiteoutLinkDir : List Char := whiteoutMetaPrefix ++ ['p', 'l', 'n', 'k']
def whiteoutOpaqueDir : List Char := whiteoutMetaPrefix ++ ['.', 'o', 'p', 'q']

/-! ## Errors, headers, the operating system -/

inductive Errno
  | ENOENT | EEXIST | ENOTDIR | EISDIR | EACCES | EPERM | ENOSYS | EINVAL | ELOOP | ENOTEMPTY
  deriving DecidableEq, Repr

/-- The errors `unpackTar` can return: the package's sentinel errors, or an
error of the operating system passed on unchanged. -/
inductive Err
  | errSyscallNotImplemented
  | errFailedOpen
  | errFailedWrite
  | errPathIsNonDirectory
  | errDirectoryExists
  | errDirectoryCreateFailed
  | errInvalidSymlink
  | errRead
  | errUnknownHeader
  | os (e : Errno)
  deriving DecidableEq, Repr

/-- The type flags of `archive/tar`. -/
inductive Typeflag
  | TypeReg | TypeRegA | TypeLink | TypeSymlink | TypeChar | TypeBlock | TypeDir | TypeFifo
  | other (c : Nat)
  deriving DecidableEq, Repr

/-- The fields of `tar.Header` that the unpacker reads. -/
structure Header where
  Name : Path
  Typeflag : Typeflag
  Linkname : Path := []
  Mode : Nat := 0
  Uid : Nat := 0
  Gid : Nat := 0
  ModTime : Int := 0
  AccessTime : Int := 0
  Devmajor : Nat := 0
  Devminor : Nat := 0
  deriving DecidableEq, Repr

/-- What the unpacker looks at in an `os.FileInfo`. -/
structure FileInfo where
  isDir : Bool
  isSymlink : Bool
  deriving DecidableEq, Repr

/-- The calls into the operating system, over a filesystem state `σ`. -/
structure OS (σ : Type) where
  lstat : σ → Path → Except Errno FileInfo
  readDirNames : σ → Path → Except Errno (List (List Char))
  mkdir : Path → Nat → σ → Option Errno × σ
  openFile : Path → Nat → σ → Option Errno × σ
  copy : Path → List Nat → σ → Option Errno × σ
  symlink : Path → Path → σ → Option Errno × σ
  mknod : Path → Nat → Nat → σ → Option Errno × σ
  removeAll : Path → σ → Option Errno × σ
  lchown : Path → Nat → Nat → σ → Option Errno × σ
  chmod : Path → Nat → σ → Option Errno × σ
  chtimes : Path → Int → Int → σ → Option Errno × σ
  utimensat : Path → (Int × Int) → (Int × Int) → σ → Option Errno × σ

/-- One record of the tar stream as `tr.Next()` delivers it: a header with the
content that follows it, or a read failure. -/
inductive Rec
  | entry (h : Header) (content : List Nat)
  | readError
  deriving DecidableEq, Repr

def osErr (r : Option Errno) : Option Err := r.map Err.os

/-! ## Times -/

/-- The value `init` gives `maxTime`, from the size in bytes of
`syscall.Timespec.Nsec`. -/
def maxTime (nsecSize : Nat) : Int :=
  if nsecSize = 8 then 2 ^ 63 - 1 else (2 ^ 31 - 1) * 1000000000

/-- The function `clampTime` in the words of the specification: an instant
before the epoch or after the maximum becomes the epoch, any other stays. -/
def clampTime (nsecSize : Nat) (t : Int) : Int :=
  if t < 0 ∨ t > maxTime nsecSize then 0 else t

def Chtimes {σ : Type} (o : OS σ) (nsecSize : Nat) (name : Path) (atime mtime : Int) (s : σ) :
    Option Err × σ :=
  let unixMinTime : Int := 0
  let unixMaxTime := maxTime nsecSize
  let atime := if atime < unixMinTime ∨ atime > unixMaxTime then unixMinTime else atime
  let mtime := if mtime < unixMinTime ∨ mtime > unixMaxTime then unixMinTime else mtime
  let r := o.chtimes name atime mtime s
  (osErr r.1, r.2)

/-- The instant of the zero `time.Time` (January 1, year 1). -/
def zeroTime : Int := -62135596800 * 1000000000

/-- The wrap of an integer to `int64`. -/
def wrapInt64 (n : Int) : Int := (n + 2 ^ 63) % 2 ^ 64 - 2 ^ 63

def timeToTimespec (t : Int) : Int × Int :=
  if t = zeroTime then (0, 2 ^ 30 - 2)
  else
    let nsec := wrapInt64 t
    (nsec / 1000000000, nsec % 1000000000)

def LUtimesNano {σ : Type} (o : OS σ) (path : Path) (ts : (Int × Int) × (Int × Int)) (s : σ) :
    Option Err × σ :=
  if (Char.ofNat 0) ∈ path then (some (Err.os Errno.EINVAL), s)
  else
    let r := o.utimensat path ts.1 ts.2 s
    match r.1 with
    | none => (none, r.2)
    | some e => if e ≠ Errno.ENOSYS then (some Err.errSyscallNotImplemented, r.2) else (none, r.2)

/-! ## Creating objects -/

/-- The permission bits (with setuid, setgid and sticky) of
`header.FileInfo().Mode()`, which is all `os.Mkdir`, `os.OpenFile` and
`os.Chmod` take from it. -/
def fileInfoMode (h : Header) : Nat := h.Mode % 4096

def directoryExists {σ : Type} (o : OS σ) (dirPath : Path) (s : σ) : Bool × Option Err :=
  match o.lstat s dirPath with
  | .ok fi => if !fi.isDir then (false, some Err.errPathIsNonDirectory) else (true, none)
  | .error _ => (false, none)

def createDirectory {σ : Type} (o : OS σ) (destPath : Path) (mode : Nat) (s : σ) :
    Option Err × σ :=
  match (directoryExists o destPath s).2 with
  | some _ => (some Err.errDirectoryExists, s)
  | none =>
    match o.mkdir destPath mode s with
    | (some _, s1) => (some Err.errDirectoryCreateFailed, s1)
    | (none, s1) => (none, s1)

def createFile {σ : Type} (o : OS σ) (destPath : Path) (mode : Nat) (content : List Nat) (s : σ) :
    Option Err × σ :=
  match o.openFile destPath mode s with
  | (some _, s1) => (some Err.errFailedOpen, s1)
  | (none, s1) =>
    match o.copy destPath content s1 with
    | (some _, s2) => (some Err.errFailedWrite, s2)
    | (none, s2) => (none, s2)

def createSymlink {σ : Type} (o : OS σ) (dest destPath : Path) (header : Header) (s : σ) :
    Option Err × σ :=
  let targetPath := Join (Dir destPath) header.Linkname
  if !HasPrefix targetPath dest then (some Err.errInvalidSymlink, s)
  else
    let r := o.symlink header.Linkname destPath s
    (osErr r.1, r.2)

def mkdev (major minor : Nat) : Nat :=
  (((minor &&& 0xfff00) <<< 12) ||| ((major &&& 0xfff) <<< 8) ||| (minor &&& 0xff)) % 2 ^ 32

def S_IFBLK : Nat := 0x6000
def S_IFCHR : Nat := 0x2000
def S_IFIFO : Nat := 0x1000

def createBlockCharFifo {σ : Type} (o : OS σ) (destPath : Path) (header : Header) (s : σ) :
    Option Err × σ :=
  let mode := header.Mode &&& 0o7777
  let mode :=
    match header.Typeflag with
    | .TypeBlock => mode ||| S_IFBLK
    | .TypeChar => mode ||| S_IFCHR
    | .TypeFifo => mode ||| S_IFIFO
    | _ => mode
  let dev := mkdev header.Devmajor header.Devminor
  let r := o.mknod destPath mode dev s
  (osErr r.1, r.2)

/-! ## Whiteouts -/

/-- The closure `walkFn` of `handleWhiteouts`; `err` is the error
`filepath.Walk` met at `path`, if any. -/
def walkFn {σ : Type} (o : OS σ) (dir : Path) (unpackedPaths : List Path)
    (path : Path) (err : Option Errno) (s : σ) : Option Err × σ :=
  match err with
  | some e => if e = Errno.ENOENT then (none, s) else (some (Err.os e), s)
  | none =>
    if path = dir then (none, s)
    else if path ∉ unpackedPaths then
      let r := o.removeAll path s
      (osErr r.1, r.2)
    else (none, s)

/-- The loop of `filepath.walk` over the names of a directory, with `self` the
recursive call. -/
def walkNames {σ : Type} (o : OS σ) (fn : Path → Option Errno → σ → Option Err × σ)
    (self : Path → FileInfo → σ → Option (Option Err × σ)) (path : Path) :
    List (List Char) → σ → Option (Option Err × σ)
  | [], s => some (none, s)
  | name :: rest, s =>
    let filename := Join path name
    match o.lstat s filename with
    | .error e =>
      match fn filename (some e) s with
      | (some e1, s1) => some (some e1, s1)
      | (none, s1) => walkNames o fn self path rest s1
    | .ok fileInfo =>
      match self filename fileInfo s with
      | none => none
      | some (some e1, s1) => some (some e1, s1)
      | some (none, s1) => walkNames o fn self path rest s1

/-- The function `filepath.walk`; the first argument is the fuel, one unit per
level of directories. -/
def walk {σ : Type} (o : OS σ) (fn : Path → Option Errno → σ → Option Err × σ) :
    Nat → Path → FileInfo → σ → Option (Option Err × σ)
  | 0, _, _, _ => none
  | fuel + 1, path, info, s =>
    if !info.isDir then some (fn path none s)
    else
      match o.readDirNames s path with
      | .error e => some (fn path (some e) s)
      | .ok names =>
        match fn path none s with
        | (some e1, s1) => some (some e1, s1)
        | (none, s1) => walkNames o fn (walk o fn fuel) path names s1

/-- The function `filepath.Walk`. -/
def Walk {σ : Type} (o : OS σ) (fuel : Nat) (root : Path)
    (fn : Path → Option Errno → σ → Option Err × σ) (s : σ) : Option (Option Err × σ) :=
  match o.lstat s root with
  | .error e => some (fn root (some e) s)
  | .ok info => walk o fn fuel root info s

def handleWhiteouts {σ : Type} (o : OS σ) (fuel : Nat) (destPath : Path)
    (unpackedPaths : List Path) (s : σ) : Option (Option Err × σ) :=
  let base := Base destPath
  let dir := Dir destPath
  if base = whiteoutOpaqueDir then
    match o.lstat s dir with
    | .error e => some (some (Err.os e), s)
    | .ok _ => Walk o fuel dir (walkFn o dir unpackedPaths) s
  else
    let originalBase := base.drop whiteoutPrefix.length
    let originalPath := Join dir originalBase
    let r := o.removeAll originalPath s
    some (osErr r.1, r.2)

/-! ## Metadata and entries -/

def setPermissions {σ : Type} (o : OS σ) (destPath : Path) (header : Header) (s : σ) :
    Option Err × σ :=
  match o.lchown destPath header.Uid header.Gid s with
  | (some e, s1) => (some (Err.os e), s1)
  | (none, s1) =>
    if header.Typeflag = Typeflag.TypeLink then
      match o.lstat s1 header.Linkname with
      | .ok fi =>
        if !fi.isSymlink then
          let r := o.chmod destPath (fileInfoMode header) s1
          (osErr r.1, r.2)
        else (none, s1)
      | .error _ => (none, s1)
    else if header.Typeflag ≠ Typeflag.TypeSymlink then
      let r := o.chmod destPath (fileInfoMode header) s1
      (osErr r.1, r.2)
    else (none, s1)

def setMtimeAndAtime {σ : Type} (o : OS σ) (nsecSize : Nat) (destPath : Path) (header : Header)
    (s : σ) : Option Err × σ :=
  let aTime := if header.AccessTime < header.ModTime then header.ModTime else header.AccessTime
  if header.Typeflag = Typeflag.TypeLink then
    match o.lstat s header.Linkname with
    | .ok fi =>
      if !fi.isSymlink then Chtimes o nsecSize destPath aTime header.ModTime s
      else (none, s)
    | .error _ => (none, s)
  else if header.Typeflag ≠ Typeflag.TypeSymlink then
    Chtimes o nsecSize destPath aTime header.ModTime s
  else
    LUtimesNano o destPath (timeToTimespec aTime, timeToTimespec header.ModTime) s

def handleTarEntry {σ : Type} (o : OS σ) (nsecSize : Nat) (fullPath dest : Path)
    (header : Header) (content : List Nat) (s : σ) : Option Err × σ :=
  let r : Option Err × σ :=
    match header.Typeflag with
    | .TypeDir => createDirectory o fullPath (fileInfoMode header) s
    | .TypeReg => createFile o fullPath (fileInfoMode header) content s
    | .TypeRegA => createFile o fullPath (fileInfoMode header) content s
    | .TypeBlock => createBlockCharFifo o fullPath header s
    | .TypeChar => createBlockCharFifo o fullPath header s
    | .TypeFifo => createBlockCharFifo o fullPath header s
    | .TypeSymlink => createSymlink o dest fullPath header s
    | _ => (some Err.errUnknownHeader, s)
  match r with
  | (some e, s1) => (some e, s1)
  | (none, s1) =>
    match setPermissions o fullPath header s1 with
    | (some e, s2) => (some e, s2)
    | (none, s2) => setMtimeAndAtime o nsecSize fullPath header s2

def changeDirTimes {σ : Type} (o : OS σ) (nsecSize : Nat) (dest : Path) :
    List Header → σ → Option Err × σ
  | [], s => (none, s)
  | hdr :: rest, s =>
    let path := Join dest hdr.Name
    match Chtimes o nsecSize path hdr.AccessTime hdr.ModTime s with
    | (some e, s1) => (some e, s1)
    | (none, s1) => changeDirTimes o nsecSize dest rest s1

/-- The local variables of `unpackTar` with the filesystem. -/
structure UnpackState (σ : Type) where
  fs : σ
  unpackedPaths : List Path
  dirs : List Header

/-- The `for` loop of `unpackTar` over the records `tr.Next()` delivers; the end
of the list is `io.EOF`. -/
def unpackLoop {σ : Type} (o : OS σ) (nsecSize fuel : Nat) (dest : Path) :
    List Rec → UnpackState σ → Option (Option Err × UnpackState σ)
  | [], st => some (none, st)
  | Rec.readError :: _, st => some (some Err.errRead, st)
  | Rec.entry hdr content :: rest, st =>
    let fullPath := Join dest hdr.Name
    let base := Base fullPath
    if HasPrefix base whiteoutPrefix then
      match handleWhiteouts o fuel fullPath st.unpackedPaths st.fs with
      | none => none
      | some (_, s1) => unpackLoop o nsecSize fuel dest rest { st with fs := s1 }
    else
      match handleTarEntry o nsecSize fullPath dest hdr content st.fs with
      | (some e, s1) => some (some e, { st with fs := s1 })
      | (none, s1) =>
        unpackLoop o nsecSize fuel dest rest
          { fs := s1
            unpackedPaths := fullPath :: st.unpackedPaths
            dirs := if hdr.Typeflag = Typeflag.TypeDir then st.dirs ++ [hdr] else st.dirs }

def unpackTar {σ : Type} (o : OS σ) (nsecSize fuel : Nat) (r : List Rec) (dest : Path) (s : σ) :
    Option (Option Err × σ) :=
  match unpackLoop o nsecSize fuel dest r { fs := s, unpackedPaths := [], dirs := [] } with
  | none => none
  | some (some e, st) => some (some e, st.fs)
  | some (none, st) => some (changeDirTimes o nsecSize dest st.dirs st.fs)

/-! ## An in-memory filesystem

A filesystem for a process whose working directory is the root: an object is
keyed by the elements of its path from the root, and a path names the key that
reading its elements from the root gives (`..` at the root stays there).  The
root is a directory that is always there.  Symbolic links are objects: a path
that goes through one names nothing, and a call that follows links (open,
chmod, chtimes) follows the link it is given.  `lstat` reports any absent
object as `ENOENT`.  A process has a user and groups: they decide whether it
may write an existing file, change its owner, mode and times, and make a
device node; permission to search and to write directories is taken as
given. -/

inductive Kind
  | dir
  | file (data : List Nat)
  | symlink (target : Path)
  | special (mode dev : Nat)
  deriving DecidableEq, Repr

structure Node where
  kind : Kind
  mode : Nat := 0
  uid : Nat := 0
  gid : Nat := 0
  atime : Int := 0
  mtime : Int := 0
  deriving DecidableEq, Repr

abbrev Key := List (List Char)

abbrev MemFS := List (Key × Node)

/-- The key a path names. -/
def resolve (p : Path) : Key := cleanSegs true (splitSlash p)

/-- The rest of `k2` after `k1`, when `k2` starts with `k1`. -/
def relTo : Key → Key → Option (List (List Char))
  | [], k2 => some k2
  | _ :: _, [] => none
  | a :: as, b :: bs => if a = b then relTo as bs else none

def rootNode : Node := { kind := Kind.dir, mode := 0o755 }

def getNode : MemFS → Key → Option Node
  | [], _ => none
  | e :: rest, k => if e.1 = k then some e.2 else getNode rest k

/-- The object at a key; the root is always a directory. -/
def findNode (fs : MemFS) (k : Key) : Option Node :=
  if k = [] then some rootNode else getNode fs k

def insertNode (fs : MemFS) (k : Key) (n : Node) : MemFS :=
  (k, n) :: fs.filter (fun e => decide (e.1 ≠ k))

def modifyNode (fs : MemFS) (k : Key) (f : Node → Node) : MemFS :=
  fs.map (fun e => if e.1 = k then (e.1, f e.2) else e)

/-- The filesystem without the object at `k` and everything below it. -/
def removeTree (fs : MemFS) (k : Key) : MemFS :=
  fs.filter (fun e => (relTo k e.1).isNone)

def isDirNode (n : Node) : Bool :=
  match n.kind with
  | Kind.dir => true
  | _ => false

def isSymlinkNode (n : Node) : Bool :=
  match n.kind with
  | Kind.symlink _ => true
  | _ => false

/-- Byte order on names, for the sorted listing of a directory. -/
def leChars : List Char → List Char → Bool
  | [], _ => true
  | _ :: _, [] => false
  | a :: as, b :: bs => decide (a.toNat < b.toNat) || (decide (a = b) && leChars as bs)

def insertName (n : List Char) : List (List Char) → List (List Char)
  | [] => [n]
  | m :: ms => if leChars n m then n :: m :: ms else m :: insertName n ms

def sortNames (l : List (List Char)) : List (List Char) := l.foldr insertName []

/-- The names of the objects directly below `k`. -/
def childNames (fs : MemFS) (k : Key) : List (List Char) :=
  sortNames (fs.filterMap (fun e =>
    match relTo k e.1 with
    | some [n] => some n
    | _ => none))

/-- Why a new object cannot be made at `k`, if it cannot. -/
def createCheck (fs : MemFS) (k : Key) : Option Errno :=
  if (findNode fs k).isSome then some Errno.EEXIST
  else
    match findNode fs k.dropLast with
    | none => some Errno.ENOENT
    | some n => if isDirNode n then none else some Errno.ENOTDIR

/-- The test `endsWithDot` of `os.RemoveAll`. -/
def endsWithDot (p : Path) : Bool :=
  match p.reverse with
  | ['.'] => true
  | '.' :: '/' :: _ => true
  | _ => false

def memLstat (fs : MemFS) (p : Path) : Except Errno FileInfo :=
  match findNode fs (resolve p) with
  | some n => .ok { isDir := isDirNode n, isSymlink := isSymlinkNode n }
  | none => .error Errno.ENOENT

def memReadDirNames (fs : MemFS) (p : Path) : Except Errno (List (List Char)) :=
  match findNode fs (resolve p) with
  | some n => if isDirNode n then .ok (childNames fs (resolve p)) else .error Errno.ENOTDIR
  | none => .error Errno.ENOENT

/-- The user and the groups a process runs as; user 0 is the superuser. -/
structure Cred where
  euid : Nat
  egid : Nat
  groups : List Nat := []
  deriving DecidableEq, Repr

def superuser : Cred := { euid := 0, egid := 0 }

/-- Whether the process is in the group. -/
def inGroup (c : Cred) (gid : Nat) : Bool :=
  decide (gid = c.egid) || decide (gid ∈ c.groups)

/-- Whether the process may write the object: the superuser may, anyone else
by the write bit of the class it falls in (owner, group, others). -/
def mayWrite (c : Cred) (n : Node) : Bool :=
  decide (c.euid = 0) ||
    (if n.uid = c.euid then decide ((n.mode / 128) % 2 = 1)
     else if inGroup c n.gid then decide ((n.mode / 16) % 2 = 1)
     else decide ((n.mode / 2) % 2 = 1))

/-- Whether the process may change the mode and the times of the object: its
owner and the superuser may. -/
def mayChange (c : Cred) (n : Node) : Bool :=
  decide (c.euid = 0) || decide (n.uid = c.euid)

/-- Whether the process may give the object the owner `uid` and group `gid`:
the superuser may; an owner may keep the owner and give a group it is in. -/
def mayChown (c : Cred) (uid gid : Nat) (n : Node) : Bool :=
  decide (c.euid = 0) || (decide (n.uid = c.euid) && decide (uid = c.euid) && inGroup c gid)

/-- How many symbolic links a call follows at most. -/
def maxSymlinks : Nat := 40

/-- The path of the object a call that follows links gets to from `p`: the
first object on the way that is not a symbolic link (or is not there).  A
relative target is read from the directory of the link. -/
def followLinks (fs : MemFS) : Nat → Path → Except Errno Path
  | 0, _ => .error Errno.ELOOP
  | d + 1, p =>
    match findNode fs (resolve p) with
    | some n =>
      match n.kind with
      | Kind.symlink t =>
        if t = [] then .error Errno.ENOENT
        else followLinks fs d (if isRooted t then t else Join (Dir p) t)
      | _ => .ok p
    | none => .ok p

/-- A new object at `p`, owned by the process. -/
def memCreate (c : Cred) (kind : Kind) (p : Path) (mode : Nat) (fs : MemFS) :
    Option Errno × MemFS :=
  match createCheck fs (resolve p) with
  | some e => (some e, fs)
  | none =>
    (none, insertNode fs (resolve p) { kind := kind, mode := mode, uid := c.euid, gid := c.egid })

/-- Whether a mode of `mknod` asks for a character or block device. -/
def isDeviceMode (mode : Nat) : Bool :=
  decide ((mode / 4096) % 16 = 2) || decide ((mode / 4096) % 16 = 6)

/-- The call `syscall.Mknod`: only the superuser makes device nodes. -/
def memMknod (c : Cred) (p : Path) (mode dev : Nat) (fs : MemFS) : Option Errno × MemFS :=
  if decide (c.euid = 0) || !isDeviceMode mode then
    memCreate c (Kind.special mode dev) p (mode % 4096) fs
  else (some Errno.EPERM, fs)

/-- The call `os.OpenFile(p, O_CREATE|O_WRONLY, mode)`: it follows links; an
object that is there must be writable by the process (`EACCES` otherwise),
one that is not is created, also at the end of a dangling link.  The object
`followLinks` gets to is never a link itself. -/
def memOpenFile (c : Cred) (p : Path) (mode : Nat) (fs : MemFS) : Option Errno × MemFS :=
  match followLinks fs (maxSymlinks + 1) p with
  | .error e => (some e, fs)
  | .ok q =>
    match findNode fs (resolve q) with
    | some n =>
      match n.kind with
      | Kind.dir => (some Errno.EISDIR, fs)
      | Kind.symlink _ => (some Errno.ELOOP, fs)
      | _ => if mayWrite c n then (none, fs) else (some Errno.EACCES, fs)
    | none => memCreate c (Kind.file []) q mode fs

/-- Writing `content` from the start of the file opened at `p`, without
truncating it. -/
def memCopy (p : Path) (content : List Nat) (fs : MemFS) : Option Errno × MemFS :=
  match followLinks fs (maxSymlinks + 1) p with
  | .error e => (some e, fs)
  | .ok q =>
    match findNode fs (resolve q) with
    | some n =>
      match n.kind with
      | Kind.file old =>
        (none, modifyNode fs (resolve q)
          (fun m => { m with kind := Kind.file (content ++ old.drop content.length) }))
      | Kind.special _ _ => (none, fs)
      | _ => (some Errno.EINVAL, fs)
    | none => (some Errno.ENOENT, fs)

/-- The call `os.RemoveAll`: nothing for the empty path, `EINVAL` for a path
ending in a dot element, otherwise the tree at `p` goes; the root itself
cannot be removed. -/
def memRemoveAll (p : Path) (fs : MemFS) : Option Errno × MemFS :=
  if p = [] then (none, fs)
  else if endsWithDot p then (some Errno.EINVAL, fs)
  else if resolve p = [] then (some Errno.EPERM, removeTree fs [])
  else (none, removeTree fs (resolve p))

/-- A change of the metadata of the object at `p` itself (a link is not
followed), when the process is allowed it. -/
def memSetMeta (allowed : Node → Bool) (f : Node → Node) (p : Path) (fs : MemFS) :
    Option Errno × MemFS :=
  match findNode fs (resolve p) with
  | some n => if allowed n then (none, modifyNode fs (resolve p) f) else (some Errno.EPERM, fs)
  | none => (some Errno.ENOENT, fs)

/-- A change of the metadata of the object that `p` leads to through links. -/
def memSetMetaFollow (allowed : Node → Bool) (f : Node → Node) (p : Path) (fs : MemFS) :
    Option Errno × MemFS :=
  match followLinks fs (maxSymlinks + 1) p with
  | .error e => (some e, fs)
  | .ok q => memSetMeta allowed f q fs

def timespecNanos (ts : Int × Int) : Int := ts.1 * 1000000000 + ts.2

/-- The in-memory filesystem as seen by a process with the credentials `c`. -/
def memOSAs (c : Cred) : OS MemFS where
  lstat := memLstat
  readDirNames := memReadDirNames
  mkdir := fun p mode fs => memCreate c Kind.dir p mode fs
  openFile := memOpenFile c
  copy := memCopy
  symlink := fun target p fs => memCreate c (Kind.symlink target) p 0o777 fs
  mknod := memMknod c
  removeAll := memRemoveAll
  lchown := fun p uid gid fs =>
    memSetMeta (mayChown c uid gid) (fun n => { n with uid := uid, gid := gid }) p fs
  chmod := fun p mode fs => memSetMetaFollow (mayChange c) (fun n => { n with mode := mode }) p fs
  chtimes := fun p a m fs =>
    memSetMetaFollow (mayChange c) (fun n => { n with atime := a, mtime := m }) p fs
  utimensat := fun p a m fs =>
    memSetMeta (mayChange c) (fun n =>
      { n with
        atime := if a.2 = 2 ^ 30 - 2 then n.atime else timespecNanos a
        mtime := if m.2 = 2 ^ 30 - 2 then n.mtime else timespecNanos m }) p fs

/-- The in-memory filesystem as seen by the superuser, who may change owners
and make device nodes as the unpacker does. -/
def memOS : OS MemFS := memOSAs superuser

/-- A filesystem on which nothing may be removed: `os.RemoveAll` fails with
`EACCES` and leaves everything in place. -/
def denyRemoveOS : OS MemFS := { memOS with removeAll := fun _ fs => (some Errno.EACCES, fs) }

/-- A record that is a regular-file entry under `dest`: type `TypeReg` or
`TypeRegA`, and a base name that is not a whiteout. -/
def isRegularEntry (dest : Path) : Rec → Bool
  | Rec.entry hdr _ =>
    (decide (hdr.Typeflag = Typeflag.TypeReg) || decide (hdr.Typeflag = Typeflag.TypeRegA))
      && !HasPrefix (Base (Join dest hdr.Name)) whiteoutPrefix
  | Rec.readError => false

/-- An object that `os.OpenFile` opens for writing: a file or a special file. -/
def isWritableNode (n : Node) : Bool :=
  match n.kind with
  | Kind.file _ => true
  | Kind.special _ _ => true
  | _ => false

/-- A name of a directory entry: not empty, not `.` or `..`, without a slash. -/
def validName (n : List Char) : Prop :=
  n ≠ [] ∧ n ≠ ['.'] ∧ n ≠ ['.', '.'] ∧ '/' ∉ n

instance (n : List Char) : Decidable (validName n) := by
  unfold validName; infer_instance

/-- Whether the walk of `handleWhiteouts` removes the object `ns` below the
path `p` when it comes to `p`: `p` or one of the paths on the way down to the
object is not in the unpacked paths. -/
def doomed (unpackedPaths : List Path) : Path → List (List Char) → Bool
  | p, [] => decide (p ∉ unpackedPaths)
  | p, n :: ns => decide (p ∉ unpackedPaths) || doomed unpackedPaths (Join p n) ns

/-- What is left after the walk has been through the object at `p` (key `k`),
which is not the root of the walk: the keys that stay. -/
def subtreeKeeps (unpackedPaths : List Path) (p : Path) (k : Key) (k2 : Key) : Bool :=
  match relTo k k2 with
  | some ns => !doomed unpackedPaths p ns
  | none => true

/-- What is left after the walk from its root `p` (key `k`): the keys that
stay. -/
def walkKeeps (unpackedPaths : List Path) (p : Path) (k : Key) (k2 : Key) : Bool :=
  match relTo k k2 with
  | some (n :: ns) => !doomed unpackedPaths (Join p n) ns
  | _ => true

/-- The path `filepath.Walk` gives the object `ns` below its root `p`. -/
def walkPath (p : Path) (ns : List (List Char)) : Path := ns.foldl Join p

/-- A well-formed filesystem: the keys are made of names, and every object
other than the root lies in a directory. -/
def wellFormed (fs : MemFS) : Prop :=
  ∀ e ∈ fs, (∀ n ∈ e.1, validName n)
    ∧ (e.1 ≠ [] → (findNode fs e.1.dropLast).map isDirNode = some true)

instance (fs : MemFS) : Decidable (wellFormed fs) := by
  unfold wellFormed; infer_instance

/-- The fuel is enough for a walk from the key `k`: every key is shorter than
the fuel and `k` together. -/
def enoughFuel (fuel : Nat) (k : Key) (fs : MemFS) : Prop :=
  0 < fuel ∧ ∀ e ∈ fs, e.1.length < fuel + k.length

instance (fuel : Nat) (k : Key) (fs : MemFS) : Decidable (enoughFuel fuel k fs) := by
  unfold enoughFuel; infer_instance

/-- A record that `unpackTar` takes for a whiteout under `dest`: an entry
whose base name starts with the whiteout prefix. -/
def isWhiteoutEntry (dest : Path) : Rec → Bool
  | Rec.entry hdr _ => HasPrefix (Base (Join dest hdr.Name)) whiteoutPrefix
  | Rec.readError => false

/-- The target of a symbolic link. -/
def linkTarget (n : Node) : Option Path :=
  match n.kind with
  | Kind.symlink t => some t
  | _ => none

/-- Whether the mode gives its owner the right to write. -/
def ownerMayWrite (mode : Nat) : Bool := decide ((mode / 128) % 2 = 1)

/-- A regular-file entry that leaves a file the process can open again for
writing: the process is the superuser, or the mode of the entry has the write
bit of the owner. -/
def reopenable (c : Cred) : Rec → Bool
  | Rec.entry hdr _ => decide (c.euid = 0) || ownerMayWrite (fileInfoMode hdr)
  | Rec.readError => false

/-- The path `p` can be unpacked over: a call that follows links gets from it
to a file (or special file) that the process owns and may write, and the
process owns the object at `p` itself. -/
def reopens (c : Cred) (fs : MemFS) (p : Path) : Prop :=
  ∃ q n m, followLinks fs (maxSymlinks + 1) p = .ok q
    ∧ findNode fs (resolve q) = some n ∧ isWritableNode n = true
    ∧ mayChange c n = true ∧ mayWrite c n = true
    ∧ findNode fs (resolve p) = some m ∧ mayChange c m = true

/-- The filesystem `fs2` has every object of `fs`, with the same link targets
and no less writable or owned by the process; what is new in it is no link. -/
def keepsObjects (c : Cred) (fs fs2 : MemFS) : Prop :=
  ∀ k, (findNode fs2 k).bind linkTarget = (findNode fs k).bind linkTarget
    ∧ ∀ n, findNode fs k = some n →
        ∃ n2, findNode fs2 k = some n2
          ∧ (isWritableNode n = true → isWritableNode n2 = true)
          ∧ (mayChange c n = true → mayChange c n2 = true)
          ∧ (mayChange c n = true → mayWrite c n = true → mayWrite c n2 = true)

/-! # Theorems -/

/-- C8: `Chtimes` hands to `os.Chtimes`, for each of the two instants on its
own, the instant itself when it lies between the epoch and `maxTime`, and the
epoch otherwise; what it hands over is always within that range.  `maxTime` is
`2^63-1` nanoseconds for an 8-byte `Nsec` and `2^31-1` seconds otherwise. -/
theorem Chtimes_clamps (σ : Type) (o : OS σ) (nsecSize : Nat) (name : Path) (atime mtime : Int)
    (s : σ) :
    Chtimes o nsecSize name atime mtime s
        = (osErr (o.chtimes name (clampTime nsecSize atime) (clampTime nsecSize mtime) s).1,
           (o.chtimes name (clampTime nsecSize atime) (clampTime nsecSize mtime) s).2)
      ∧ (∀ t : Int, clampTime nsecSize t = if 0 ≤ t ∧ t ≤ maxTime nsecSize then t else 0)
      ∧ (∀ t : Int, 0 ≤ clampTime nsecSize t ∧ clampTime nsecSize t ≤ maxTime nsecSize)
      ∧ maxTime 8 = 2 ^ 63 - 1
      ∧ maxTime 4 = (2 ^ 31 - 1) * 1000000000 := by
  have hmax : 0 ≤ maxTime nsecSize := by
    unfold maxTime; split <;> norm_num
  refine ⟨?_, ?_, ?_, ?_, ?_⟩
  · simp only [Chtimes, clampTime]
  · intro t
    unfold clampTime
    split_ifs <;> omega
  · intro t
    unfold clampTime
    split
    · exact ⟨le_refl _, hmax⟩
    · constructor <;> omega
  · simp [maxTime]
  · simp [maxTime]

/-- C5 (the code at the failing input): `handleTarEntry` answers a header of
type `TypeLink` with `errUnknownHeader` and touches nothing, whatever the
operating system does; so a stream with a regular file `a` and a hard link
`b` to it makes `unpackTar` fail. -/
theorem hardlink_rejected (σ : Type) (o : OS σ) (nsecSize : Nat) (fullPath dest : Path)
    (header : Header) (content : List Nat) (s : σ) :
    handleTarEntry o nsecSize fullPath dest { header with Typeflag := Typeflag.TypeLink } content s
        = (some Err.errUnknownHeader, s)
      ∧ (unpackTar memOS 8 1
          [Rec.entry { Name := "a".toList, Typeflag := Typeflag.TypeReg } [1, 2],
           Rec.entry { Name := "b".toList, Typeflag := Typeflag.TypeLink, Linkname := "a".toList } []]
          "/dest".toList [(["dest".toList], { kind := Kind.dir })]).map Prod.fst
        = some (some Err.errUnknownHeader) := by
  constructor
  · simp [handleTarEntry]
  · rfl

/-- C7 (the code at the failing input): on a filesystem where removal is
refused with `EACCES`, `handleWhiteouts` returns that error for the marker
`/dest/.wh.foo`, whose target `/dest/foo` exists; `unpackTar` drops the error,
goes on and returns `nil`. -/
theorem whiteout_error_discarded :
    handleWhiteouts denyRemoveOS 1 "/dest/.wh.foo".toList []
        [(["dest".toList], { kind := Kind.dir }),
         (["dest".toList, "foo".toList], { kind := Kind.file [1] })]
      = some (some (Err.os Errno.EACCES),
          [(["dest".toList], { kind := Kind.dir }),
           (["dest".toList, "foo".toList], { kind := Kind.file [1] })])
    ∧ unpackTar denyRemoveOS 8 1
        [Rec.entry { Name := ".wh.foo".toList, Typeflag := Typeflag.TypeReg } []]
        "/dest".toList
        [(["dest".toList], { kind := Kind.dir }),
         (["dest".toList, "foo".toList], { kind := Kind.file [1] })]
      = some (none,
          [(["dest".toList], { kind := Kind.dir }),
           (["dest".toList, "foo".toList], { kind := Kind.file [1] })]) := by
  constructor <;> rfl

/-- C2 (the code at the failing input): for the root `/dest` and the link
`/dest/link` with target `../dest-other/x`, the target resolves to
`/dest-other/x`, outside the root, yet `createSymlink` calls `os.Symlink`
(whatever the operating system), and on the in-memory filesystem the link is
made. -/
theorem createSymlink_sibling_accepted (σ : Type) (o : OS σ) (s : σ) :
    Join (Dir "/dest/link".toList) "../dest-other/x".toList = "/dest-other/x".toList
    ∧ createSymlink o "/dest".toList "/dest/link".toList
        { Name := "link".toList, Typeflag := Typeflag.TypeSymlink,
          Linkname := "../dest-other/x".toList } s
      = (osErr (o.symlink "../dest-other/x".toList "/dest/link".toList s).1,
         (o.symlink "../dest-other/x".toList "/dest/link".toList s).2)
    ∧ createSymlink memOS "/dest".toList "/dest/link".toList
        { Name := "link".toList, Typeflag := Typeflag.TypeSymlink,
          Linkname := "../dest-other/x".toList }
        [(["dest".toList], { kind := Kind.dir })]
      = (none,
         [(["dest".toList, "link".toList],
            { kind := Kind.symlink "../dest-other/x".toList, mode := 0o777 }),
          (["dest".toList], { kind := Kind.dir })]) := by
  refine ⟨by rfl, by rfl, by rfl⟩

/-- C9 (the code at the failing input): for a directory entry `d` with access
time 1000 and modification time 2000, processing the entry leaves the
directory with access time 2000 (and modification time 2000), and the final
pass of `unpackTar` then sets the access time 1000. -/
theorem changeDirTimes_other_atime :
    (unpackLoop memOS 8 1 "/dest".toList
        [Rec.entry { Name := "d".toList, Typeflag := Typeflag.TypeDir,
                     ModTime := 2000, AccessTime := 1000 } []]
        { fs := [(["dest".toList], { kind := Kind.dir })], unpackedPaths := [], dirs := [] }).map
      (fun r => (r.1, (findNode r.2.fs ["dest".toList, "d".toList]).map
        (fun n => (n.atime, n.mtime))))
      = some (none, some (2000, 2000))
    ∧ (unpackTar memOS 8 1
        [Rec.entry { Name := "d".toList, Typeflag := Typeflag.TypeDir,
                     ModTime := 2000, AccessTime := 1000 } []]
        "/dest".toList [(["dest".toList], { kind := Kind.dir })]).map
      (fun r => (r.1, (findNode r.2 ["dest".toList, "d".toList]).map
        (fun n => (n.atime, n.mtime))))
      = some (none, some (1000, 2000)) := by
  constructor <;> rfl

/-- C10 (the code at the failing input): for the root `/srv/dest` the entry
`.wh...` is a whiteout whose target is `/srv`, the parent of the root, and the
entry `.wh.` one whose target is the root itself; `unpackTar` removes them
with everything below. -/
theorem whiteout_removes_outside_dest :
    Join (Dir (Join "/srv/dest".toList ".wh...".toList))
        ((Base (Join "/srv/dest".toList ".wh...".toList)).drop whiteoutPrefix.length)
      = "/srv".toList
    ∧ unpackTar memOS 8 1
        [Rec.entry { Name := ".wh...".toList, Typeflag := Typeflag.TypeReg } []]
        "/srv/dest".toList
        [(["srv".toList], { kind := Kind.dir }),
         (["srv".toList, "dest".toList], { kind := Kind.dir }),
         (["srv".toList, "other".toList], { kind := Kind.file [1] }),
         (["etc".toList], { kind := Kind.dir })]
      = some (none, [(["etc".toList], { kind := Kind.dir })])
    ∧ Join (Dir (Join "/srv/dest".toList ".wh.".toList))
        ((Base (Join "/srv/dest".toList ".wh.".toList)).drop whiteoutPrefix.length)
      = "/srv/dest".toList
    ∧ unpackTar memOS 8 1
        [Rec.entry { Name := ".wh.".toList, Typeflag := Typeflag.TypeReg } []]
        "/srv/dest".toList
        [(["srv".toList], { kind := Kind.dir }),
         (["srv".toList, "dest".toList], { kind := Kind.dir }),
         (["srv".toList, "dest".toList, "keep".toList], { kind := Kind.file [1] }),
         (["srv".toList, "other".toList], { kind := Kind.file [1] })]
      = some (none,
          [(["srv".toList], { kind := Kind.dir }),
           (["srv".toList, "other".toList], { kind := Kind.file [1] })]) := by
  refine ⟨by rfl, by rfl, by rfl, by rfl⟩

/-- C1 (counterexample): for the root `/dest`, the regular-file entry `../x`
joins to `/x`, which is not within `/dest`; `unpackTar` returns no error and
has created the file `/x`, which was not there before. -/
theorem unpackTar_escaping_entry_created :
    Join "/dest".toList "../x".toList = "/x".toList
    ∧ HasPrefix "/x".toList "/dest".toList = false
    ∧ findNode [(["dest".toList], { kind := Kind.dir })] ["x".toList] = none
    ∧ unpackTar memOS 8 1
        [Rec.entry { Name := "../x".toList, Typeflag := Typeflag.TypeReg } [1, 2]]
        "/dest".toList [(["dest".toList], { kind := Kind.dir })]
      = some (none,
          [(["x".toList], { kind := Kind.file [1, 2] }),
           (["dest".toList], { kind := Kind.dir })]) := by
  refine ⟨by rfl, by rfl, by rfl, by rfl⟩

/-! ## Lookups in the in-memory filesystem -/

theorem getNode_filter (P : Key → Bool) (fs : MemFS) (k : Key) :
    getNode (fs.filter (fun e => P e.1)) k = if P k then getNode fs k else none := by
  induction fs with
  | nil => simp [getNode]
  | cons e rest ih =>
    by_cases hP : P e.1 = true
    · by_cases hk : e.1 = k
      · subst hk; simp [List.filter_cons, getNode, hP]
      · simp [List.filter_cons, getNode, hP, hk, ih]
    · by_cases hk : e.1 = k
      · subst hk; simp [List.filter_cons, getNode, hP, ih]
      · simp [List.filter_cons, getNode, hP, hk, ih]

theorem getNode_insertNode (fs : MemFS) (k k2 : Key) (n : Node) :
    getNode (insertNode fs k n) k2 = if k = k2 then some n else getNode fs k2 := by
  unfold insertNode
  by_cases h : k = k2
  · simp [getNode, h]
  · have := getNode_filter (fun x => decide (x ≠ k)) fs k2
    simp only [getNode, h, if_false]
    rw [this]
    have h2 : k2 ≠ k := fun e => h e.symm
    simp [h2]

theorem getNode_modifyNode (fs : MemFS) (k k2 : Key) (f : Node → Node) :
    getNode (modifyNode fs k f) k2 = if k = k2 then (getNode fs k2).map f else getNode fs k2 := by
  unfold modifyNode
  induction fs with
  | nil => simp [getNode]
  | cons e rest ih =>
    by_cases hk : e.1 = k
    · by_cases h2 : k = k2
      · subst h2; simp [getNode, hk]
      · have h3 : ¬ e.1 = k2 := by rw [hk]; exact h2
        simp only [h2, if_false] at ih
        simp [getNode, hk, h2, h3, ih]
    · by_cases h2 : e.1 = k2
      · have h3 : ¬ k = k2 := by rw [← h2]; exact fun e2 => hk e2.symm
        have h4 : ¬ k2 = k := fun e2 => h3 e2.symm
        simp [getNode, h2, h3, h4]
      · by_cases h3 : k = k2
        · subst h3; simp [getNode, hk, ih]
        · simp only [h3, if_false] at ih
          simp [getNode, hk, h2, h3, ih]

theorem findNode_insertNode (fs : MemFS) (k k2 : Key) (n : Node) (hk : k ≠ []) :
    findNode (insertNode fs k n) k2 = if k = k2 then some n else findNode fs k2 := by
  unfold findNode
  by_cases h2 : k2 = []
  · subst h2; simp [hk]
  · simp [h2, getNode_insertNode]

theorem findNode_modifyNode (fs : MemFS) (k k2 : Key) (f : Node → Node) (hk : k ≠ []) :
    findNode (modifyNode fs k f) k2
      = if k = k2 then (findNode fs k2).map f else findNode fs k2 := by
  unfold findNode
  by_cases h2 : k2 = []
  · subst h2; simp [hk]
  · simp [h2, getNode_modifyNode]

theorem mayWrite_superuser (n : Node) : mayWrite superuser n = true := by
  simp [mayWrite, superuser]

theorem mayChange_superuser (n : Node) : mayChange superuser n = true := by
  simp [mayChange, superuser]

theorem mayChown_superuser (uid gid : Nat) (n : Node) :
    mayChown superuser uid gid n = true := by
  simp [mayChown, superuser]

theorem followLinks_of_not_symlink (fs : MemFS) (d : Nat) (p : Path)
    (h : ∀ n, findNode fs (resolve p) = some n → isSymlinkNode n = false) :
    followLinks fs (d + 1) p = .ok p := by
  unfold followLinks
  cases hf : findNode fs (resolve p) with
  | none => rfl
  | some n =>
    have := h n hf
    dsimp only
    split
    · next t hk => simp [isSymlinkNode, hk] at this
    · rfl

theorem memSetMetaFollow_of_not_symlink (allowed : Node → Bool) (f : Node → Node) (p : Path)
    (fs : MemFS) (h : ∀ n, findNode fs (resolve p) = some n → isSymlinkNode n = false) :
    memSetMetaFollow allowed f p fs = memSetMeta allowed f p fs := by
  unfold memSetMetaFollow
  rw [followLinks_of_not_symlink fs _ p h]

theorem memSetMeta_of_allowed (allowed : Node → Bool) (f : Node → Node) (p : Path)
    (fs : MemFS) (n : Node) (hn : findNode fs (resolve p) = some n) (ha : allowed n = true) :
    memSetMeta allowed f p fs = (none, modifyNode fs (resolve p) f) := by
  simp [memSetMeta, hn, ha]

/-- C1 (as amended): `unpackTar` makes no containment test on the joined path
of an entry.  On the in-memory filesystem, a regular-file entry whose joined
path is free and whose parent directory exists is created at the joined path,
with the content of the entry, and `unpackTar` returns no error, whether or
not that path lies within `dest`; no other object changes. -/
theorem unpackTar_regular_entry_at_joined_path (nsecSize fuel : Nat) (dest : Path)
    (hdr : Header) (content : List Nat) (fs : MemFS)
    (hreg : hdr.Typeflag = Typeflag.TypeReg)
    (hbase : HasPrefix (Base (Join dest hdr.Name)) whiteoutPrefix = false)
    (hfree : findNode fs (resolve (Join dest hdr.Name)) = none)
    (hparent : (findNode fs (resolve (Join dest hdr.Name)).dropLast).map isDirNode = some true) :
    ∃ fs2, unpackTar memOS nsecSize fuel [Rec.entry hdr content] dest fs = some (none, fs2)
      ∧ (findNode fs2 (resolve (Join dest hdr.Name))).map (fun n => n.kind)
          = some (Kind.file content)
      ∧ ∀ k, k ≠ resolve (Join dest hdr.Name) → findNode fs2 k = findNode fs k := by
  have hK : resolve (Join dest hdr.Name) ≠ [] := by
    intro h0
    rw [h0] at hfree
    simp [findNode] at hfree
  obtain ⟨pn, hpn, hpd⟩ : ∃ pn, findNode fs (resolve (Join dest hdr.Name)).dropLast = some pn
      ∧ isDirNode pn = true := by
    cases hp : findNode fs (resolve (Join dest hdr.Name)).dropLast with
    | none => rw [hp] at hparent; simp at hparent
    | some pn => rw [hp] at hparent; exact ⟨pn, rfl, by simpa using hparent⟩
  -- the file is created
  have hopen : memOpenFile superuser (Join dest hdr.Name) (fileInfoMode hdr) fs
      = (none, insertNode fs (resolve (Join dest hdr.Name))
          { kind := Kind.file [], mode := fileInfoMode hdr, uid := 0, gid := 0 }) := by
    unfold memOpenFile
    rw [followLinks_of_not_symlink fs _ _ (fun n hn => by rw [hfree] at hn; simp at hn)]
    simp [hfree, memCreate, createCheck, hpn, hpd, superuser]
  -- the content is written
  have hnot : ∀ (s : MemFS) (x : Node), findNode s (resolve (Join dest hdr.Name)) = some x →
      isSymlinkNode x = false →
      ∀ n, findNode s (resolve (Join dest hdr.Name)) = some n → isSymlinkNode n = false := by
    intro s x hx hxs n hn
    rw [hx] at hn
    injection hn with hn
    rw [← hn]; exact hxs
  have hcopy : ∀ (s : MemFS) (x : Node), findNode s (resolve (Join dest hdr.Name)) = some x →
      x.kind = Kind.file [] →
      memCopy (Join dest hdr.Name) content s
        = (none, modifyNode s (resolve (Join dest hdr.Name))
            (fun m => { m with kind := Kind.file (content ++ ([] : List Nat).drop content.length) })) := by
    intro s x hx hk
    unfold memCopy
    rw [followLinks_of_not_symlink s _ _ (hnot s x hx (by simp [isSymlinkNode, hk]))]
    simp [hx, hk]
  have hmeta : ∀ (allowed : Node → Bool) (f : Node → Node) (s : MemFS) (x : Node),
      findNode s (resolve (Join dest hdr.Name)) = some x → allowed x = true →
      memSetMeta allowed f (Join dest hdr.Name) s
        = (none, modifyNode s (resolve (Join dest hdr.Name)) f) :=
    fun allowed f s x hx ha => memSetMeta_of_allowed allowed f _ s x hx ha
  have hmetaF : ∀ (allowed : Node → Bool) (f : Node → Node) (s : MemFS) (x : Node),
      findNode s (resolve (Join dest hdr.Name)) = some x → isSymlinkNode x = false →
      allowed x = true →
      memSetMetaFollow allowed f (Join dest hdr.Name) s
        = (none, modifyNode s (resolve (Join dest hdr.Name)) f) := by
    intro allowed f s x hx hxs ha
    rw [memSetMetaFollow_of_not_symlink allowed f _ s (hnot s x hx hxs)]
    exact memSetMeta_of_allowed allowed f _ s x hx ha
  have hstage : ∀ (s : MemFS) (f : Node → Node) (x : Node),
      findNode s (resolve (Join dest hdr.Name)) = some x →
      findNode (modifyNode s (resolve (Join dest hdr.Name)) f) (resolve (Join dest hdr.Name))
        = some (f x) := by
    intro s f x hx
    rw [findNode_modifyNode _ _ _ _ hK, if_pos rfl, hx]
    rfl
  have hother : ∀ (s : MemFS) (f : Node → Node) (k : Key),
      k ≠ resolve (Join dest hdr.Name) →
      findNode (modifyNode s (resolve (Join dest hdr.Name)) f) k = findNode s k := by
    intro s f k hk
    rw [findNode_modifyNode _ _ _ _ hK, if_neg (fun e => hk e.symm)]
  have h1 : findNode (insertNode fs (resolve (Join dest hdr.Name))
      { kind := Kind.file [], mode := fileInfoMode hdr, uid := 0, gid := 0 })
      (resolve (Join dest hdr.Name))
      = some { kind := Kind.file [], mode := fileInfoMode hdr, uid := 0, gid := 0 } := by
    rw [findNode_insertNode _ _ _ _ hK, if_pos rfl]
  have hc := hcopy _ _ h1 rfl
  have h2 := hstage _ (fun m => { m with
    kind := Kind.file (content ++ ([] : List Nat).drop content.length) }) _ h1
  have hown := hmeta (mayChown superuser hdr.Uid hdr.Gid)
    (fun n => { n with uid := hdr.Uid, gid := hdr.Gid }) _ _ h2 (mayChown_superuser _ _ _)
  have h3 := hstage _ (fun n => { n with uid := hdr.Uid, gid := hdr.Gid }) _ h2
  have hmod := hmetaF (mayChange superuser) (fun n => { n with mode := fileInfoMode hdr })
    _ _ h3 rfl (mayChange_superuser _)
  have h4 := hstage _ (fun n => { n with mode := fileInfoMode hdr }) _ h3
  have htime := fun a m => hmetaF (mayChange superuser)
    (fun n => { n with atime := a, mtime := m }) _ _ h4 rfl (mayChange_superuser _)
  have h5 := fun (a m : Int) => hstage _ (fun n => { n with atime := a, mtime := m }) _ h4
  simp only [unpackTar, unpackLoop, hbase, handleTarEntry, hreg, createFile, memOS, memOSAs,
    hopen, hc, setPermissions, hown, hmod, setMtimeAndAtime, Chtimes, htime, osErr,
    Option.map_none', changeDirTimes, reduceCtorEq, ne_eq, not_false_eq_true,
    Bool.false_eq_true, if_false, if_true]
  refine ⟨_, rfl, ?_, ?_⟩
  · rw [h5]
    simp
  · intro k hk
    rw [hother _ _ k hk, hother _ _ k hk, hother _ _ k hk, hother _ _ k hk,
      findNode_insertNode _ _ _ _ hK, if_neg (fun e => hk e.symm)]
/-- C1 (witness): the amended statement at the root `/dest` and the entry
`../x`, whose joined path `/x` is outside the root. -/
theorem unpackTar_regular_entry_at_joined_path_witness :
    ∃ fs2, unpackTar memOS 8 1
        [Rec.entry { Name := "../x".toList, Typeflag := Typeflag.TypeReg } [1, 2]]
        "/dest".toList [(["dest".toList], { kind := Kind.dir })] = some (none, fs2)
      ∧ (findNode fs2 (resolve (Join "/dest".toList "../x".toList))).map (fun n => n.kind)
          = some (Kind.file [1, 2])
      ∧ ∀ k, k ≠ resolve (Join "/dest".toList "../x".toList) →
          findNode fs2 k = findNode [(["dest".toList], { kind := Kind.dir })] k :=
  unpackTar_regular_entry_at_joined_path 8 1 "/dest".toList
    { Name := "../x".toList, Typeflag := Typeflag.TypeReg } [1, 2]
    [(["dest".toList], { kind := Kind.dir })] rfl (by rfl) (by rfl) (by rfl)

/-! ## Paths: splitting, cleaning and joining -/

theorem splitSlash_ne_nil (s : List Char) : splitSlash s ≠ [] := by
  cases s with
  | nil => simp [splitSlash]
  | cons c cs =>
    unfold splitSlash
    split_ifs
    · simp
    · split <;> simp

theorem splitSlash_of_no_slash (n : List Char) (h : '/' ∉ n) : splitSlash n = [n] := by
  induction n with
  | nil => rfl
  | cons c cs ih =>
    have hc : c ≠ '/' := fun e => h (by simp [e])
    have hcs : '/' ∉ cs := fun e => h (List.mem_cons_of_mem _ e)
    simp [splitSlash, hc, ih hcs]

theorem splitSlash_append_slash (a b : List Char) :
    splitSlash (a ++ '/' :: b) = splitSlash a ++ splitSlash b := by
  induction a with
  | nil => simp [splitSlash]
  | cons c cs ih =>
    by_cases hc : c = '/'
    · simp [splitSlash, hc, ih]
    · cases hs : splitSlash cs with
      | nil => exact absurd hs (splitSlash_ne_nil cs)
      | cons q qs =>
        rw [hs] at ih
        simp [splitSlash, hc, ih, hs]

theorem splitSlash_no_slash (s : List Char) : ∀ x ∈ splitSlash s, '/' ∉ x := by
  induction s with
  | nil => simp [splitSlash]
  | cons c cs ih =>
    by_cases hc : c = '/'
    · intro x hx
      simp only [splitSlash, hc, if_true, List.mem_cons] at hx
      rcases hx with rfl | hx
      · simp
      · exact ih x hx
    · intro x hx
      simp only [splitSlash, hc, if_false] at hx
      cases hs : splitSlash cs with
      | nil => exact absurd hs (splitSlash_ne_nil cs)
      | cons q qs =>
        rw [hs] at hx ih
        simp only [List.mem_cons] at hx
        rcases hx with rfl | hx
        · intro hmem
          rcases List.mem_cons.mp hmem with h1 | h1
          · exact hc h1.symm
          · exact ih q (List.mem_cons_self _ _) h1
        · exact ih x (List.mem_cons_of_mem _ hx)

theorem splitSlash_joinSlash (segs : List (List Char)) (hne : segs ≠ [])
    (hns : ∀ x ∈ segs, '/' ∉ x) : splitSlash (joinSlash segs) = segs := by
  induction segs with
  | nil => exact absurd rfl hne
  | cons s rest ih =>
    cases rest with
    | nil => simpa [joinSlash] using splitSlash_of_no_slash s (hns s (List.mem_cons_self _ _))
    | cons t rest2 =>
      have h1 := ih (by simp) (fun x hx => hns x (List.mem_cons_of_mem _ hx))
      simp only [joinSlash, splitSlash_append_slash, h1,
        splitSlash_of_no_slash s (hns s (List.mem_cons_self _ _))]
      simp

theorem cleanStep_validName (r : Bool) (st : List (List Char)) (n : List Char)
    (hv : validName n) : cleanStep r st n = n :: st := by
  obtain ⟨h1, h2, h3, _⟩ := hv
  simp [cleanStep, h1, h2, h3]

theorem cleanStep_rel (r : Bool) (st : List (List Char)) (j : Nat) (x : List Char)
    (hst : ∀ y ∈ st, validName y) (hx : '/' ∉ x) :
    ∃ j2, cleanStep r (st ++ List.replicate j ['.', '.']) x
        = cleanStep true st x ++ List.replicate j2 ['.', '.']
      ∧ ∀ y ∈ cleanStep true st x, validName y := by
  by_cases h1 : x = [] ∨ x = ['.']
  · exact ⟨j, by simp [cleanStep, h1], by simpa [cleanStep, h1] using hst⟩
  · by_cases h2 : x = ['.', '.']
    · subst h2
      cases st with
      | nil =>
        cases j with
        | zero =>
          cases r
          · exact ⟨1, by simp [cleanStep], by simp [cleanStep]⟩
          · exact ⟨0, by simp [cleanStep], by simp [cleanStep]⟩
        | succ k =>
          refine ⟨k + 2, ?_, by simp [cleanStep]⟩
          simp [cleanStep, List.replicate_succ]
      | cons top rest =>
        have htop : top ≠ ['.', '.'] := (hst top (List.mem_cons_self _ _)).2.2.1
        refine ⟨j, ?_, ?_⟩
        · simp [cleanStep, htop]
        · intro y hy
          simp only [cleanStep, htop] at hy
          simp at hy
          exact hst y (List.mem_cons_of_mem _ hy)
    · have hv : validName x := by
        refine ⟨fun e => h1 (Or.inl e), fun e => h1 (Or.inr e), h2, hx⟩
      refine ⟨j, ?_, ?_⟩
      · simp [cleanStep_validName _ _ _ hv]
      · intro y hy
        rw [cleanStep_validName _ _ _ hv] at hy
        rcases List.mem_cons.mp hy with rfl | hy
        · exact hv
        · exact hst y hy

theorem cleanStep_foldl_rel (r : Bool) (xs : List (List Char)) :
    ∀ (st : List (List Char)) (j : Nat), (∀ y ∈ st, validName y) → (∀ x ∈ xs, '/' ∉ x) →
      ∃ j2, xs.foldl (cleanStep r) (st ++ List.replicate j ['.', '.'])
          = xs.foldl (cleanStep true) st ++ List.replicate j2 ['.', '.']
        ∧ ∀ y ∈ xs.foldl (cleanStep true) st, validName y := by
  induction xs with
  | nil => intro st j hst _; exact ⟨j, rfl, hst⟩
  | cons x rest ih =>
    intro st j hst hxs
    obtain ⟨j1, h1, h2⟩ := cleanStep_rel r st j x hst (hxs x (List.mem_cons_self _ _))
    obtain ⟨j2, h3, h4⟩ := ih (cleanStep true st x) j1 h2
      (fun y hy => hxs y (List.mem_cons_of_mem _ hy))
    exact ⟨j2, by simp only [List.foldl_cons, h1, h3], by simpa using h4⟩

theorem cleanSegs_rel (r : Bool) (xs : List (List Char)) (hxs : ∀ x ∈ xs, '/' ∉ x) :
    ∃ j, cleanSegs r xs = List.replicate j ['.', '.'] ++ cleanSegs true xs
      ∧ ∀ y ∈ cleanSegs true xs, validName y := by
  obtain ⟨j, h1, h2⟩ := cleanStep_foldl_rel r xs [] 0 (by simp) hxs
  refine ⟨j, ?_, ?_⟩
  · simp only [List.replicate_zero, List.append_nil] at h1
    simp [cleanSegs, h1]
  · intro y hy
    simp only [cleanSegs, List.mem_reverse] at hy
    exact h2 y hy

theorem cleanStep_foldl_validNames (r : Bool) (names : List (List Char)) :
    ∀ st : List (List Char), (∀ n ∈ names, validName n) →
      names.foldl (cleanStep r) st = names.reverse ++ st := by
  induction names with
  | nil => intro st _; rfl
  | cons n rest ih =>
    intro st h
    rw [List.foldl_cons, cleanStep_validName _ _ _ (h n (List.mem_cons_self _ _)),
      ih _ (fun y hy => h y (List.mem_cons_of_mem _ hy))]
    simp

theorem cleanStep_foldl_dots (j : Nat) :
    (List.replicate j ['.', '.']).foldl (cleanStep true) [] = [] := by
  induction j with
  | zero => rfl
  | succ k ih =>
    rw [List.replicate_succ', List.foldl_append, ih]
    rfl

theorem cleanSegs_true_dots_names (j : Nat) (names : List (List Char))
    (h : ∀ n ∈ names, validName n) :
    cleanSegs true (List.replicate j ['.', '.'] ++ names) = names := by
  simp [cleanSegs, List.foldl_append, cleanStep_foldl_dots, cleanStep_foldl_validNames _ _ _ h]

theorem cleanSegs_append_validName (r : Bool) (xs : List (List Char)) (n : List Char)
    (hv : validName n) : cleanSegs r (xs ++ [n]) = cleanSegs r xs ++ [n] := by
  simp [cleanSegs, List.foldl_append, cleanStep_validName _ _ _ hv]

theorem cleanSegs_true_nil_cons (xs : List (List Char)) :
    cleanSegs true ([] :: xs) = cleanSegs true xs := by
  simp [cleanSegs, cleanStep]

theorem joinSlash_ne_nil (segs : List (List Char)) (hne : segs ≠ [])
    (h : ∀ x ∈ segs, x ≠ []) : joinSlash segs ≠ [] := by
  cases segs with
  | nil => exact absurd rfl hne
  | cons s rest =>
    cases rest with
    | nil => simpa [joinSlash] using h s (List.mem_cons_self _ _)
    | cons t rest2 =>
      have := h s (List.mem_cons_self _ _)
      simp [joinSlash, this]

theorem joinSlash_append_singleton (zs : List (List Char)) (n : List Char) :
    joinSlash (zs ++ [n]) = if zs = [] then n else joinSlash zs ++ '/' :: n := by
  induction zs with
  | nil => simp [joinSlash]
  | cons z rest ih =>
    cases rest with
    | nil => simp [joinSlash]
    | cons t rest2 =>
      simp only [List.cons_append, reduceCtorEq, if_false] at ih
      simp only [List.cons_append, joinSlash, reduceCtorEq, if_false, List.append_eq, ih]
      simp

theorem resolve_Clean (s : List Char) : resolve (Clean s) = resolve s := by
  obtain ⟨j, hrel, hval⟩ := cleanSegs_rel (isRooted s) (splitSlash s) (splitSlash_no_slash s)
  have hs : ∀ x ∈ cleanSegs (isRooted s) (splitSlash s), '/' ∉ x ∧ x ≠ [] := by
    intro x hx
    rw [hrel] at hx
    rcases List.mem_append.mp hx with h | h
    · rw [List.eq_of_mem_replicate h]; simp
    · exact ⟨(hval x h).2.2.2, (hval x h).1⟩
  unfold Clean resolve
  by_cases hnil : cleanSegs (isRooted s) (splitSlash s) = []
  · have hn : cleanSegs true (splitSlash s) = [] := by
      rw [hnil] at hrel
      have := congrArg List.length hrel
      simp only [List.length_nil, List.length_append, List.length_replicate] at this
      exact List.length_eq_zero.mp (by omega)
    rw [hnil, hn]
    cases isRooted s <;> rfl
  · have hj := joinSlash_ne_nil _ hnil (fun x hx => (hs x hx).2)
    have hsp := splitSlash_joinSlash _ hnil (fun x hx => (hs x hx).1)
    cases hr : isRooted s with
    | false =>
      rw [hr] at hj hsp hrel
      simp only [Bool.false_eq_true, if_false, List.nil_append, hj, hsp]
      rw [hrel]
      exact cleanSegs_true_dots_names j _ hval
    | true =>
      rw [hr] at hj hsp
      have h1 : splitSlash ('/' :: joinSlash (cleanSegs true (splitSlash s)))
          = [] :: cleanSegs true (splitSlash s) := by simp [splitSlash, hsp]
      simp only [if_true, List.singleton_append, reduceCtorEq, if_false, h1,
        cleanSegs_true_nil_cons]
      simpa using cleanSegs_true_dots_names 0 _ hval

theorem resolve_Join_validName (p n : List Char) (hv : validName n) :
    resolve (Join p n) = resolve p ++ [n] := by
  have hn : n ≠ [] := hv.1
  have hsn : splitSlash n = [n] := splitSlash_of_no_slash n hv.2.2.2
  unfold Join
  by_cases hp : p = []
  · subst hp
    simp only [if_true, hn, if_false, resolve_Clean]
    simp [resolve, hsn, cleanSegs, cleanStep, splitSlash, hv.1, hv.2.1, hv.2.2.1]
  · simp only [hp, hn, if_false, resolve_Clean]
    unfold resolve
    rw [splitSlash_append_slash, hsn, cleanSegs_append_validName _ _ _ hv]

theorem validNames_resolve (p : List Char) : ∀ n ∈ resolve p, validName n :=
  (cleanSegs_rel true (splitSlash p) (splitSlash_no_slash p)).choose_spec.2

theorem Clean_ends_with_validName (r : Bool) (ys : List (List Char)) (n : List Char)
    (hv : validName n) :
    ∃ w, (if ((if r then ['/'] else []) ++ joinSlash (cleanSegs r (ys ++ [n]))) = [] then ['.']
          else (if r then ['/'] else []) ++ joinSlash (cleanSegs r (ys ++ [n]))) = w ++ n := by
  rw [cleanSegs_append_validName _ _ _ hv, joinSlash_append_singleton]
  have hn : n ≠ [] := hv.1
  by_cases hz : cleanSegs r ys = []
  · refine ⟨if r then ['/'] else [], ?_⟩
    simp [hz, hn]
  · refine ⟨(if r then ['/'] else []) ++ joinSlash (cleanSegs r ys) ++ ['/'], ?_⟩
    simp [hz]

theorem Join_ends_with_validName (p n : List Char) (hv : validName n) :
    ∃ w, Join p n = w ++ n := by
  have hn : n ≠ [] := hv.1
  have hsn : splitSlash n = [n] := splitSlash_of_no_slash n hv.2.2.2
  unfold Join
  by_cases hp : p = []
  · simp only [hp, if_true, hn, if_false]
    have := Clean_ends_with_validName (isRooted n) [] n hv
    simpa [Clean, hsn] using this
  · simp only [hp, hn, if_false]
    have := Clean_ends_with_validName (isRooted (p ++ '/' :: n)) (splitSlash p) n hv
    simpa [Clean, splitSlash_append_slash, hsn] using this

theorem endsWithDot_append_validName (w n : List Char) (hv : validName n) :
    endsWithDot (w ++ n) = false := by
  obtain ⟨h1, h2, _, h4⟩ := hv
  unfold endsWithDot
  rw [List.reverse_append]
  cases hr : n.reverse with
  | nil => exact absurd (List.reverse_eq_nil_iff.mp hr) h1
  | cons c m =>
    cases m with
    | nil =>
      have hn : n = [c] := by
        have := congrArg List.reverse hr
        simpa using this
      have hc : c ≠ '.' := fun e => h2 (by rw [hn, e])
      cases hw : w.reverse with
      | nil =>
        simp only [List.cons_append, List.nil_append]
        split
        · next heq => injection heq with e1 _; exact absurd e1 hc
        · next heq => injection heq with e1 _; exact absurd e1 hc
        · rfl
      | cons d w2 =>
        simp only [List.cons_append, List.nil_append]
        split
        · next heq => injection heq with e1 _; exact absurd e1 hc
        · next heq => injection heq with e1 _; exact absurd e1 hc
        · rfl
    | cons d m2 =>
      have hd : d ≠ '/' := by
        intro e
        apply h4
        have : d ∈ n.reverse := by rw [hr]; simp
        rw [← e]
        exact List.mem_reverse.mp this
      simp only [List.cons_append]
      split
      · next heq => injection heq with _ e2; simp at e2
      · next heq =>
        injection heq with _ e2
        injection e2 with e3 _
        exact absurd e3 hd
      · rfl

theorem memRemoveAll_Join (p n : List Char) (fs : MemFS) (hv : validName n) :
    memRemoveAll (Join p n) fs = (none, removeTree fs (resolve p ++ [n])) := by
  obtain ⟨w, hw⟩ := Join_ends_with_validName p n hv
  have h1 : Join p n ≠ [] := by
    rw [hw]
    intro e
    exact hv.1 (List.append_eq_nil.mp e).2
  have h2 : endsWithDot (Join p n) = false := by
    rw [hw]; exact endsWithDot_append_validName w n hv
  have h3 : resolve p ++ [n] ≠ [] := by simp
  unfold memRemoveAll
  simp only [h1, h2, if_false, Bool.false_eq_true, resolve_Join_validName p n hv, h3]

/-! ## Keys below a key -/

theorem relTo_eq_some_iff (k k2 : Key) (ns : List (List Char)) :
    relTo k k2 = some ns ↔ k2 = k ++ ns := by
  induction k generalizing k2 with
  | nil => simp [relTo, eq_comm]
  | cons a as ih =>
    cases k2 with
    | nil => simp [relTo]
    | cons b bs =>
      by_cases hab : a = b
      · subst hab; simp [relTo, ih]
      · have : ¬ b = a := fun e => hab e.symm
        simp [relTo, hab, this]

theorem relTo_append_self (k ns : Key) : relTo k (k ++ ns) = some ns :=
  (relTo_eq_some_iff k (k ++ ns) ns).mpr rfl

theorem relTo_self (k : Key) : relTo k k = some [] := by
  simpa using relTo_append_self k []

theorem relTo_snoc (k : Key) (n : List Char) (k2 : Key) :
    relTo (k ++ [n]) k2
      = match relTo k k2 with
        | some (m :: ns) => if n = m then some ns else none
        | _ => none := by
  cases h : relTo k k2 with
  | none =>
    simp only
    cases h2 : relTo (k ++ [n]) k2 with
    | none => rfl
    | some ms =>
      have := (relTo_eq_some_iff _ _ _).mp h2
      have h3 : relTo k k2 = some ([n] ++ ms) :=
        (relTo_eq_some_iff _ _ _).mpr (by rw [this]; simp)
      rw [h] at h3; simp at h3
  | some rel =>
    have hk2 := (relTo_eq_some_iff _ _ _).mp h
    subst hk2
    cases rel with
    | nil =>
      simp only
      cases h2 : relTo (k ++ [n]) (k ++ []) with
      | none => rfl
      | some ms =>
        have := congrArg List.length ((relTo_eq_some_iff _ _ _).mp h2)
        simp at this
    | cons m ns =>
      simp only
      by_cases hnm : n = m
      · subst hnm
        simp only [if_true]
        rw [relTo_eq_some_iff]; simp
      · simp only [hnm, if_false]
        cases h2 : relTo (k ++ [n]) (k ++ m :: ns) with
        | none => rfl
        | some ms =>
          have := (relTo_eq_some_iff _ _ _).mp h2
          simp only [List.append_assoc, List.singleton_append, List.append_cancel_left_eq,
            List.cons.injEq] at this
          exact absurd this.1.symm hnm

theorem doomed_append (U : List Path) (ns ms : List (List Char)) :
    ∀ p, doomed U p ns = true → doomed U p (ns ++ ms) = true := by
  induction ns with
  | nil =>
    intro p h
    cases ms with
    | nil => simpa using h
    | cons m ms2 =>
      simp only [doomed] at h
      simp [doomed, h]
  | cons n rest ih =>
    intro p h
    simp only [doomed, Bool.or_eq_true] at h
    simp only [List.cons_append, doomed, Bool.or_eq_true]
    rcases h with h | h
    · exact Or.inl h
    · exact Or.inr (ih _ h)

theorem getNode_some_mem (fs : MemFS) (k : Key) (n : Node) (h : getNode fs k = some n) :
    (k, n) ∈ fs := by
  induction fs with
  | nil => simp [getNode] at h
  | cons e rest ih =>
    by_cases hk : e.1 = k
    · simp only [getNode, hk, if_true, Option.some.injEq] at h
      have : e = (k, n) := Prod.ext hk h
      simp [this]
    · simp only [getNode, hk, if_false] at h
      exact List.mem_cons_of_mem _ (ih h)

theorem getNode_isSome_of_mem (fs : MemFS) (e : Key × Node) (h : e ∈ fs) :
    (getNode fs e.1).isSome = true := by
  induction fs with
  | nil => simp at h
  | cons x rest ih =>
    by_cases hk : x.1 = e.1
    · simp [getNode, hk]
    · simp only [getNode, hk, if_false]
      rcases List.mem_cons.mp h with h1 | h1
      · exact absurd (by rw [h1]) hk
      · exact ih h1

theorem findNode_filter (P : Key → Bool) (fs : MemFS) (k : Key) :
    findNode (fs.filter (fun e => P e.1)) k
      = if k = [] then some rootNode else if P k then findNode fs k else none := by
  unfold findNode
  by_cases hk : k = []
  · simp [hk]
  · simp [hk, getNode_filter]

theorem wellFormed_ancestor_dir (fs : MemFS) (hwf : wellFormed fs) (k : Key) :
    ∀ (ns : List (List Char)), ns ≠ [] → (∃ e ∈ fs, e.1 = k ++ ns) →
      (findNode fs k).map isDirNode = some true := by
  intro ns
  induction ns using List.reverseRecOn with
  | nil => intro h; exact absurd rfl h
  | append_singleton ns2 n ih =>
    intro _ hex
    obtain ⟨e, he, hek⟩ := hex
    have hne : e.1 ≠ [] := by rw [hek]; simp
    have hp := (hwf e he).2 hne
    rw [hek, ← List.append_assoc, List.dropLast_concat] at hp
    by_cases hns : ns2 = []
    · subst hns; simpa using hp
    · apply ih hns
      have hk2 : k ++ ns2 ≠ [] := by simp [hns]
      cases hg : getNode fs (k ++ ns2) with
      | none => simp [findNode, hk2, hg] at hp
      | some m => exact ⟨_, getNode_some_mem _ _ _ hg, rfl⟩

theorem wellFormed_filter (fs : MemFS) (hwf : wellFormed fs) (P : Key → Bool)
    (hP : ∀ k, k ≠ [] → P k = true → P k.dropLast = true) :
    wellFormed (fs.filter (fun e => P e.1)) := by
  intro e he
  obtain ⟨he1, he2⟩ := List.mem_filter.mp he
  refine ⟨(hwf e he1).1, fun hne => ?_⟩
  have hp := (hwf e he1).2 hne
  rw [findNode_filter]
  by_cases hd : e.1.dropLast = []
  · simp only [hd, if_true]
    rw [hd] at hp
    simpa [findNode] using hp
  · simp only [hd, if_false, hP e.1 hne he2, if_true]
    exact hp

theorem mem_insertName (n x : List Char) (l : List (List Char)) :
    x ∈ insertName n l ↔ x = n ∨ x ∈ l := by
  induction l with
  | nil => simp [insertName]
  | cons m ms ih =>
    unfold insertName
    split_ifs
    · simp
    · simp only [List.mem_cons, ih]
      tauto

theorem mem_sortNames (x : List Char) (l : List (List Char)) : x ∈ sortNames l ↔ x ∈ l := by
  induction l with
  | nil => simp [sortNames]
  | cons m ms ih =>
    have : sortNames (m :: ms) = insertName m (sortNames ms) := rfl
    rw [this, mem_insertName, ih]
    simp

theorem mem_childNames (fs : MemFS) (k : Key) (n : List Char) :
    n ∈ childNames fs k ↔ ∃ e ∈ fs, e.1 = k ++ [n] := by
  unfold childNames
  rw [mem_sortNames, List.mem_filterMap]
  constructor
  · rintro ⟨e, he, h⟩
    refine ⟨e, he, ?_⟩
    cases hr : relTo k e.1 with
    | none => rw [hr] at h; simp at h
    | some rel =>
      rw [hr] at h
      have hk := (relTo_eq_some_iff _ _ _).mp hr
      match rel, h with
      | [m], h =>
        simp only [Option.some.injEq] at h
        rw [hk, h]
  · rintro ⟨e, he, h⟩
    refine ⟨e, he, ?_⟩
    rw [h, relTo_append_self]

/-! ## The walk of `handleWhiteouts` on the in-memory filesystem -/

theorem doomed_of_not_mem (U : List Path) (p : Path) (ns : List (List Char)) (h : p ∉ U) :
    doomed U p ns = true := by
  cases ns <;> simp [doomed, h]

theorem subtreeKeeps_of_not_mem (U : List Path) (p : Path) (k k2 : Key) (h : p ∉ U) :
    subtreeKeeps U p k k2 = (relTo k k2).isNone := by
  unfold subtreeKeeps
  cases relTo k k2 with
  | none => rfl
  | some ns => simp [doomed_of_not_mem U p ns h]

theorem subtreeKeeps_of_mem (U : List Path) (p : Path) (k k2 : Key) (h : p ∈ U) :
    subtreeKeeps U p k k2 = walkKeeps U p k k2 := by
  unfold subtreeKeeps walkKeeps
  cases relTo k k2 with
  | none => rfl
  | some ns =>
    cases ns with
    | nil => simp [doomed, h]
    | cons m rest => simp [doomed, h]

theorem subtreeKeeps_dropLast (U : List Path) (p : Path) (k k2 : Key) (hne : k2 ≠ [])
    (h : subtreeKeeps U p k k2 = true) : subtreeKeeps U p k k2.dropLast = true := by
  unfold subtreeKeeps at h ⊢
  cases hr : relTo k k2.dropLast with
  | none => rfl
  | some ns =>
    have h1 := (relTo_eq_some_iff _ _ _).mp hr
    have h2 : k2 = k ++ (ns ++ [k2.getLast hne]) := by
      rw [← List.append_assoc, ← h1]
      exact (List.dropLast_append_getLast hne).symm
    rw [(relTo_eq_some_iff _ _ _).mpr h2] at h
    simp only [Bool.not_eq_true'] at h ⊢
    cases hd : doomed U p ns with
    | false => rfl
    | true => rw [doomed_append U ns _ p hd] at h; exact absurd h (by simp)

theorem no_key_below_absent (fs : MemFS) (hwf : wellFormed fs) (k : Key) (hk : k ≠ [])
    (habs : findNode fs k = none) (e : Key × Node) (he : e ∈ fs) : relTo k e.1 = none := by
  cases hr : relTo k e.1 with
  | none => rfl
  | some ns =>
    exfalso
    have h1 := (relTo_eq_some_iff _ _ _).mp hr
    by_cases hns : ns = []
    · subst hns
      simp only [List.append_nil] at h1
      have := getNode_isSome_of_mem fs e he
      rw [h1] at this
      simp [findNode, hk] at habs
      rw [habs] at this
      simp at this
    · have := wellFormed_ancestor_dir fs hwf k ns hns ⟨e, he, h1⟩
      rw [habs] at this
      simp at this

theorem no_key_below_nondir (fs : MemFS) (hwf : wellFormed fs) (k : Key) (node : Node)
    (hnode : findNode fs k = some node) (hnd : isDirNode node = false) (e : Key × Node)
    (he : e ∈ fs) (ns : List (List Char)) (hr : relTo k e.1 = some ns) : ns = [] := by
  by_contra hns
  have h1 := (relTo_eq_some_iff _ _ _).mp hr
  have := wellFormed_ancestor_dir fs hwf k ns hns ⟨e, he, h1⟩
  rw [hnode] at this
  simp [hnd] at this

theorem all_childNames_eq_walkKeeps (U : List Path) (p : Path) (k : Key) (fs : MemFS)
    (hwf : wellFormed fs) (e : Key × Node) (he : e ∈ fs) :
    (childNames fs k).all (fun n => subtreeKeeps U (Join p n) (k ++ [n]) e.1)
      = walkKeeps U p k e.1 := by
  unfold walkKeeps
  cases hr : relTo k e.1 with
  | none =>
    simp only
    rw [List.all_eq_true]
    intro n _
    simp [subtreeKeeps, relTo_snoc, hr]
  | some rel =>
    cases rel with
    | nil =>
      simp only
      rw [List.all_eq_true]
      intro n _
      simp [subtreeKeeps, relTo_snoc, hr]
    | cons m ns =>
      simp only
      have hk := (relTo_eq_some_iff _ _ _).mp hr
      have hm : m ∈ childNames fs k := by
        rw [mem_childNames]
        by_cases hns : ns = []
        · exact ⟨e, he, by rw [hk, hns]⟩
        · have hd := wellFormed_ancestor_dir fs hwf (k ++ [m]) ns hns
            ⟨e, he, by rw [hk]; simp⟩
          cases hg : getNode fs (k ++ [m]) with
          | none => simp [findNode, hg] at hd
          | some x => exact ⟨_, getNode_some_mem _ _ _ hg, rfl⟩
      cases hd : doomed U (Join p m) ns with
      | true =>
        simp only [Bool.not_true]
        rw [List.all_eq_false]
        exact ⟨m, hm, by simp [subtreeKeeps, relTo_snoc, hr, hd]⟩
      | false =>
        simp only [Bool.not_false]
        rw [List.all_eq_true]
        intro n _
        by_cases hnm : n = m
        · subst hnm; simp [subtreeKeeps, relTo_snoc, hr, hd]
        · simp [subtreeKeeps, relTo_snoc, hr, hnm]

theorem walkFn_enoent (dir : Path) (U : List Path) (p : Path) (s : MemFS) :
    walkFn memOS dir U p (some Errno.ENOENT) s = (none, s) := by
  simp [walkFn]

theorem walkFn_child (dir : Path) (U : List Path) (p : Path) (s : MemFS) (hne : p ≠ dir)
    (hrm : ∀ fs, memRemoveAll p fs = (none, removeTree fs (resolve p))) :
    walkFn memOS dir U p none s = (none, if p ∈ U then s else removeTree s (resolve p)) := by
  unfold walkFn
  by_cases hU : p ∈ U
  · simp [hne, hU]
  · simp [hne, hU, memOS, memOSAs, hrm, osErr]

theorem walkNames_memOS (dir : Path) (U : List Path) (fuel : Nat)
    (hchild : ∀ (p : Path) (rel : List (List Char)) (info : FileInfo) (s : MemFS),
      wellFormed s → resolve p = resolve dir ++ rel → rel ≠ [] →
      (∀ fs, memRemoveAll p fs = (none, removeTree fs (resolve p))) →
      (∃ node, findNode s (resolve p) = some node ∧ info.isDir = isDirNode node) →
      (∀ e ∈ s, e.1.length < fuel + (resolve p).length) →
      walk memOS (walkFn memOS dir U) fuel p info s
        = some (none, s.filter (fun e => subtreeKeeps U p (resolve p) e.1)))
    (p : Path) (rel : List (List Char)) (hp : resolve p = resolve dir ++ rel)
    (names : List (List Char)) :
    ∀ s : MemFS, wellFormed s → (∀ n ∈ names, validName n) →
      (∀ e ∈ s, e.1.length < fuel + 1 + (resolve p).length) →
      walkNames memOS (walkFn memOS dir U) (walk memOS (walkFn memOS dir U) fuel) p names s
        = some (none, s.filter (fun e =>
            names.all (fun n => subtreeKeeps U (Join p n) (resolve p ++ [n]) e.1))) := by
  induction names with
  | nil =>
    intro s _ _ _
    simp [walkNames]
  | cons n rest ih =>
    intro s hwf hval hdepth
    have hv : validName n := hval n (List.mem_cons_self _ _)
    have hres : resolve (Join p n) = resolve p ++ [n] := resolve_Join_validName p n hv
    have hlstat : memOS.lstat s (Join p n) = memLstat s (Join p n) := rfl
    simp only [walkNames, hlstat]
    unfold memLstat
    rw [hres]
    cases hfind : findNode s (resolve p ++ [n]) with
    | none =>
      simp only [walkFn_enoent]
      rw [ih s hwf (fun m hm => hval m (List.mem_cons_of_mem _ hm)) hdepth]
      congr 2
      apply List.filter_congr
      intro e he
      have := no_key_below_absent s hwf (resolve p ++ [n]) (by simp) hfind e he
      simp [List.all_cons, subtreeKeeps, this]
    | some node =>
      simp only
      have hstep := hchild (Join p n) (rel ++ [n])
        { isDir := isDirNode node, isSymlink := isSymlinkNode node } s hwf
        (by rw [hres, hp, List.append_assoc]) (by simp)
        (fun fs => by rw [memRemoveAll_Join p n fs hv, hres])
        ⟨node, by rw [hres]; exact hfind, rfl⟩
        (fun e he => by
          have := hdepth e he
          rw [hres]
          simp only [List.length_append, List.length_singleton]
          omega)
      rw [hstep]
      simp only
      rw [hres]
      have hwf1 : wellFormed (s.filter (fun e =>
          subtreeKeeps U (Join p n) (resolve p ++ [n]) e.1)) :=
        wellFormed_filter s hwf (fun k => subtreeKeeps U (Join p n) (resolve p ++ [n]) k)
          (fun k hk h => subtreeKeeps_dropLast U _ _ k hk h)
      rw [ih _ hwf1 (fun m hm => hval m (List.mem_cons_of_mem _ hm))
        (fun e he => hdepth e (List.mem_filter.mp he).1)]
      simp only [List.filter_filter, List.all_cons]
      congr 2
      apply List.filter_congr
      intro e _
      exact Bool.and_comm _ _

theorem walk_memOS (dir : Path) (U : List Path) (fuel : Nat) :
    ∀ (p : Path) (rel : List (List Char)) (info : FileInfo) (s : MemFS),
      wellFormed s → resolve p = resolve dir ++ rel → rel ≠ [] →
      (∀ fs, memRemoveAll p fs = (none, removeTree fs (resolve p))) →
      (∃ node, findNode s (resolve p) = some node ∧ info.isDir = isDirNode node) →
      (∀ e ∈ s, e.1.length < fuel + (resolve p).length) →
      walk memOS (walkFn memOS dir U) fuel p info s
        = some (none, s.filter (fun e => subtreeKeeps U p (resolve p) e.1)) := by
  induction fuel with
  | zero =>
    intro p rel info s _ hp hrel _ hnode hdepth
    exfalso
    obtain ⟨node, hfind, _⟩ := hnode
    have hk : resolve p ≠ [] := by rw [hp]; simp [hrel]
    simp only [findNode, hk, if_false] at hfind
    have := hdepth _ (getNode_some_mem _ _ _ hfind)
    simp at this
  | succ fuel ih =>
    intro p rel info s hwf hp hrel hrm hnode hdepth
    obtain ⟨node, hfind, hinfo⟩ := hnode
    have hne : p ≠ dir := by
      intro e
      rw [e] at hp
      have := congrArg List.length hp
      simp only [List.length_append] at this
      have : rel.length = 0 := by omega
      exact hrel (List.length_eq_zero.mp this)
    have hfn := walkFn_child dir U p s hne hrm
    unfold walk
    by_cases hdir : info.isDir = true
    · -- a directory
      have hrd : memOS.readDirNames s p = .ok (childNames s (resolve p)) := by
        show memReadDirNames s p = _
        unfold memReadDirNames
        rw [hinfo] at hdir
        simp [hfind, hdir]
      simp only [hdir, Bool.not_true, Bool.false_eq_true, if_false, hrd, hfn]
      have hnames : ∀ n ∈ childNames s (resolve p), validName n := by
        intro n hn
        obtain ⟨e, he, hek⟩ := (mem_childNames _ _ _).mp hn
        exact (hwf e he).1 n (by rw [hek]; simp)
      by_cases hU : p ∈ U
      · simp only [hU, if_true]
        rw [walkNames_memOS dir U fuel ih p rel hp _ s hwf hnames
          (fun e he => by have := hdepth e he; omega)]
        congr 2
        apply List.filter_congr
        intro e he
        rw [all_childNames_eq_walkKeeps U p (resolve p) s hwf e he, subtreeKeeps_of_mem U p _ _ hU]
      · simp only [hU, if_false]
        have hwf1 : wellFormed (removeTree s (resolve p)) :=
          wellFormed_filter s hwf (fun k => subtreeKeeps U p (resolve p) k)
            (fun k hk h => subtreeKeeps_dropLast U _ _ k hk h) |> fun h => by
              have heq : removeTree s (resolve p)
                  = s.filter (fun e => subtreeKeeps U p (resolve p) e.1) := by
                unfold removeTree
                apply List.filter_congr
                intro e _
                rw [subtreeKeeps_of_not_mem U p _ _ hU]
              rw [heq]; exact h
        rw [walkNames_memOS dir U fuel ih p rel hp _ _ hwf1 hnames
          (fun e he => by
            have := hdepth e (List.mem_filter.mp he).1
            omega)]
        congr 2
        unfold removeTree
        rw [List.filter_filter]
        apply List.filter_congr
        intro e _
        rw [subtreeKeeps_of_not_mem U p _ _ hU]
        cases hr : relTo (resolve p) e.1 with
        | some ns => simp
        | none =>
          simp only [Option.isNone_none, Bool.and_true]
          rw [List.all_eq_true]
          intro n _
          simp [subtreeKeeps, relTo_snoc, hr]
    · -- not a directory
      simp only [hdir, Bool.not_false, if_true, hfn]
      congr 2
      by_cases hU : p ∈ U
      · simp only [hU, if_true]
        symm
        rw [List.filter_eq_self]
        intro e he
        unfold subtreeKeeps
        cases hr : relTo (resolve p) e.1 with
        | none => rfl
        | some ns =>
          have hnd : isDirNode node = false := by
            rw [← hinfo]; simpa using hdir
          have := no_key_below_nondir s hwf _ node hfind hnd e he ns hr
          subst this
          simp [doomed, hU]
      · simp only [hU, if_false]
        unfold removeTree
        apply List.filter_congr
        intro e _
        rw [subtreeKeeps_of_not_mem U p _ _ hU]

theorem handleWhiteouts_opaque_filter (fuel : Nat) (destPath : Path) (U : List Path)
    (fs : MemFS) (hbase : Base destPath = whiteoutOpaqueDir) (hwf : wellFormed fs)
    (hdir : (findNode fs (resolve (Dir destPath))).map isDirNode = some true)
    (hfuel : enoughFuel fuel (resolve (Dir destPath)) fs) :
    handleWhiteouts memOS fuel destPath U fs
      = some (none, fs.filter (fun e =>
          walkKeeps U (Dir destPath) (resolve (Dir destPath)) e.1)) := by
  obtain ⟨hpos, hdepth⟩ := hfuel
  obtain ⟨f, hf⟩ : ∃ f, fuel = f + 1 := ⟨fuel - 1, by omega⟩
  subst hf
  cases hfind : findNode fs (resolve (Dir destPath)) with
  | none => rw [hfind] at hdir; simp at hdir
  | some node =>
    rw [hfind] at hdir
    have hd : isDirNode node = true := by simpa using hdir
    have hlstat : memOS.lstat fs (Dir destPath)
        = .ok { isDir := isDirNode node, isSymlink := isSymlinkNode node } := by
      show memLstat fs (Dir destPath) = _
      simp [memLstat, hfind]
    have hrd : memOS.readDirNames fs (Dir destPath)
        = .ok (childNames fs (resolve (Dir destPath))) := by
      show memReadDirNames fs (Dir destPath) = _
      simp [memReadDirNames, hfind, hd]
    have hfn : walkFn memOS (Dir destPath) U (Dir destPath) none fs = (none, fs) := by
      simp [walkFn]
    have hnames : ∀ n ∈ childNames fs (resolve (Dir destPath)), validName n := by
      intro n hn
      obtain ⟨e, he, hek⟩ := (mem_childNames _ _ _).mp hn
      exact (hwf e he).1 n (by rw [hek]; simp)
    unfold handleWhiteouts
    simp only [hbase, if_true, hlstat, Walk]
    unfold walk
    simp only [hd, Bool.not_true, Bool.false_eq_true, if_false, hrd, hfn]
    rw [walkNames_memOS (Dir destPath) U f (walk_memOS (Dir destPath) U f) (Dir destPath) []
      (by simp) _ fs hwf hnames (fun e he => by have := hdepth e he; omega)]
    congr 2
    apply List.filter_congr
    intro e he
    exact all_childNames_eq_walkKeeps U _ _ fs hwf e he

theorem doomed_of_walkPath_not_mem (U : List Path) (ns : List (List Char)) :
    ∀ p, walkPath p ns ∉ U → doomed U p ns = true := by
  induction ns with
  | nil => intro p h; simpa [doomed, walkPath] using h
  | cons n rest ih =>
    intro p h
    have : doomed U (Join p n) rest = true := ih (Join p n) (by simpa [walkPath] using h)
    simp [doomed, this]

theorem not_doomed_of_prefixes_mem (U : List Path) (ns : List (List Char)) :
    ∀ p, (∀ ms, ms <+: ns → walkPath p ms ∈ U) → doomed U p ns = false := by
  induction ns with
  | nil =>
    intro p h
    have := h [] (List.prefix_refl _)
    simpa [doomed, walkPath] using this
  | cons n rest ih =>
    intro p h
    have h0 : p ∈ U := by simpa [walkPath] using h [] (List.nil_prefix)
    have h1 : doomed U (Join p n) rest = false := by
      apply ih
      intro ms hms
      have := h (n :: ms) (by simpa [List.cons_prefix_cons] using hms)
      simpa [walkPath] using this
    simp [doomed, h0, h1]

theorem resolve_walkPath (ns : List (List Char)) :
    ∀ p, (∀ n ∈ ns, validName n) → resolve (walkPath p ns) = resolve p ++ ns := by
  induction ns with
  | nil => intro p _; simp [walkPath]
  | cons n rest ih =>
    intro p h
    have := ih (Join p n) (fun m hm => h m (List.mem_cons_of_mem _ hm))
    simp only [walkPath, List.foldl_cons] at this ⊢
    rw [this, resolve_Join_validName p n (h n (List.mem_cons_self _ _))]
    simp

theorem findNode_filter_of_keep (P : Key → Bool) (fs : MemFS) (k : Key) (h : P k = true) :
    findNode (fs.filter (fun e => P e.1)) k = findNode fs k := by
  rw [findNode_filter]
  by_cases h0 : k = []
  · simp [h0, findNode]
  · simp [h0, h]

/-- C4 (as amended): for an existing directory `D` of a well-formed filesystem
and any set `U` of unpacked paths, `handleWhiteouts` on the opaque marker
`D/.wh..wh..opq` returns (with fuel for the depth of the tree) and afterwards:
`D` is as before; every object below `D` whose path is not in `U` is gone;
every object below `D` for which its own path and the paths of all the
directories between `D` and it are in `U` is as before, content included;
nothing outside `D` has changed.  The path of the object `ns` below `D` is
`walkPath D ns`, which names that object. -/
theorem handleWhiteouts_opaque_memOS (fuel : Nat) (destPath : Path) (U : List Path)
    (fs : MemFS) (hbase : Base destPath = whiteoutOpaqueDir) (hwf : wellFormed fs)
    (hdir : (findNode fs (resolve (Dir destPath))).map isDirNode = some true)
    (hfuel : enoughFuel fuel (resolve (Dir destPath)) fs) :
    ∃ fs2, handleWhiteouts memOS fuel destPath U fs = some (none, fs2)
      ∧ findNode fs2 (resolve (Dir destPath)) = findNode fs (resolve (Dir destPath))
      ∧ (∀ ns, ns ≠ [] → walkPath (Dir destPath) ns ∉ U →
          findNode fs2 (resolve (Dir destPath) ++ ns) = none)
      ∧ (∀ ns, (∀ ms, ms ≠ [] → ms <+: ns → walkPath (Dir destPath) ms ∈ U) →
          findNode fs2 (resolve (Dir destPath) ++ ns)
            = findNode fs (resolve (Dir destPath) ++ ns))
      ∧ (∀ k, relTo (resolve (Dir destPath)) k = none → findNode fs2 k = findNode fs k)
      ∧ (∀ ns, (∀ n ∈ ns, validName n) →
          resolve (walkPath (Dir destPath) ns) = resolve (Dir destPath) ++ ns) := by
  refine ⟨_, handleWhiteouts_opaque_filter fuel destPath U fs hbase hwf hdir hfuel,
    ?_, ?_, ?_, ?_, ?_⟩
  · exact findNode_filter_of_keep _ fs _ (by simp [walkKeeps, relTo_self])
  · intro ns hns hU
    rw [findNode_filter]
    cases ns with
    | nil => exact absurd rfl hns
    | cons n rest =>
      have hd := doomed_of_walkPath_not_mem U rest (Join (Dir destPath) n)
        (by simpa [walkPath] using hU)
      simp [walkKeeps, relTo_append_self, hd]
  · intro ns hU
    apply findNode_filter_of_keep
    cases ns with
    | nil => simp [walkKeeps, relTo_self]
    | cons n rest =>
      have hd := not_doomed_of_prefixes_mem U rest (Join (Dir destPath) n) (fun ms hms => by
        have := hU (n :: ms) (by simp) (by simpa [List.cons_prefix_cons] using hms)
        simpa [walkPath] using this)
      simp [walkKeeps, relTo_append_self, hd]
  · intro k hk
    exact findNode_filter_of_keep _ fs _ (by simp [walkKeeps, hk])
  · intro ns hns
    exact resolve_walkPath ns _ hns

/-- C4 (witness): the amended statement for the marker `/d/.wh..wh..opq`, a
directory `/d` holding `a/b`, `c`, `e/f` and `e/g`, and the unpacked paths
`/d/a/b`, `/d/e` and `/d/e/g`. -/
theorem handleWhiteouts_opaque_memOS_witness :
    ∃ fs2, handleWhiteouts memOS 3 "/d/.wh..wh..opq".toList
        ["/d/a/b".toList, "/d/e".toList, "/d/e/g".toList]
        [(["d".toList], { kind := Kind.dir }),
         (["d".toList, "a".toList], { kind := Kind.dir }),
         (["d".toList, "a".toList, "b".toList], { kind := Kind.file [7] }),
         (["d".toList, "c".toList], { kind := Kind.file [7] }),
         (["d".toList, "e".toList], { kind := Kind.dir }),
         (["d".toList, "e".toList, "f".toList], { kind := Kind.file [7] }),
         (["d".toList, "e".toList, "g".toList], { kind := Kind.file [7] })] = some (none, fs2)
      ∧ findNode fs2 ["d".toList, "e".toList, "g".toList] = some { kind := Kind.file [7] }
      ∧ findNode fs2 ["d".toList, "e".toList, "f".toList] = none := by
  obtain ⟨fs2, h1, _, h3, h4, _, _⟩ := handleWhiteouts_opaque_memOS 3 "/d/.wh..wh..opq".toList
    ["/d/a/b".toList, "/d/e".toList, "/d/e/g".toList]
    [(["d".toList], { kind := Kind.dir }),
     (["d".toList, "a".toList], { kind := Kind.dir }),
     (["d".toList, "a".toList, "b".toList], { kind := Kind.file [7] }),
     (["d".toList, "c".toList], { kind := Kind.file [7] }),
     (["d".toList, "e".toList], { kind := Kind.dir }),
     (["d".toList, "e".toList, "f".toList], { kind := Kind.file [7] }),
     (["d".toList, "e".toList, "g".toList], { kind := Kind.file [7] })]
    (by rfl) (by decide) (by rfl) (by decide)
  refine ⟨fs2, h1, ?_, ?_⟩
  · have := h4 ["e".toList, "g".toList] (by
      intro ms hne hpre
      have hcases : ms = ["e".toList] ∨ ms = ["e".toList, "g".toList] := by
        rcases ms with _ | ⟨a, _ | ⟨b, _ | ⟨c, t⟩⟩⟩
        · exact absurd rfl hne
        · left
          have := List.cons_prefix_cons.mp hpre
          rw [this.1]
        · right
          have h1 := List.cons_prefix_cons.mp hpre
          have h2 := List.cons_prefix_cons.mp h1.2
          rw [h1.1, h2.1]
        · have := List.IsPrefix.length_le hpre
          simp at this
      rcases hcases with h | h <;> subst h <;> decide)
    rw [show resolve (Dir "/d/.wh..wh..opq".toList) = ["d".toList] from by rfl] at this
    rw [show (["d".toList] ++ ["e".toList, "g".toList] : Key)
      = ["d".toList, "e".toList, "g".toList] from rfl] at this
    rw [this]
    rfl
  · have := h3 ["e".toList, "f".toList] (by simp) (by decide)
    rw [show resolve (Dir "/d/.wh..wh..opq".toList) = ["d".toList] from by rfl] at this
    exact this

/-- C4 (counterexample): `/d/a/b` is below `/d` and its path is in the
unpacked paths, but the directory `/d/a` on the way is not; the opaque marker
`/d/.wh..wh..opq` removes `/d/a` with `/d/a/b` in it. -/
theorem handleWhiteouts_opaque_removes_unpacked :
    "/d/a/b".toList ∈ ["/d/a/b".toList]
    ∧ findNode
        [(["d".toList], { kind := Kind.dir }),
         (["d".toList, "a".toList], { kind := Kind.dir }),
         (["d".toList, "a".toList, "b".toList], { kind := Kind.file [7] })]
        (resolve "/d/a/b".toList) = some { kind := Kind.file [7] }
    ∧ handleWhiteouts memOS 3 "/d/.wh..wh..opq".toList ["/d/a/b".toList]
        [(["d".toList], { kind := Kind.dir }),
         (["d".toList, "a".toList], { kind := Kind.dir }),
         (["d".toList, "a".toList, "b".toList], { kind := Kind.file [7] })]
      = some (none, [(["d".toList], { kind := Kind.dir })]) := by
  refine ⟨by decide, by rfl, by rfl⟩

theorem Clean_validName_shape (r : Bool) (ys : List (List Char)) (n : List Char)
    (hv : validName n) :
    ∃ w, (if ((if r then ['/'] else []) ++ joinSlash (cleanSegs r (ys ++ [n]))) = [] then ['.']
          else (if r then ['/'] else []) ++ joinSlash (cleanSegs r (ys ++ [n]))) = w ++ n
      ∧ (w = [] ∨ ∃ w2, w = w2 ++ ['/']) := by
  rw [cleanSegs_append_validName _ _ _ hv, joinSlash_append_singleton]
  have hn : n ≠ [] := hv.1
  by_cases hz : cleanSegs r ys = []
  · refine ⟨if r then ['/'] else [], ?_, ?_⟩
    · simp [hz, hn]
    · cases r
      · left; rfl
      · right; exact ⟨[], rfl⟩
  · refine ⟨(if r then ['/'] else []) ++ joinSlash (cleanSegs r ys) ++ ['/'], ?_, ?_⟩
    · simp [hz]
    · right; exact ⟨_, rfl⟩

theorem Join_validName_shape (p n : List Char) (hv : validName n) :
    ∃ w, Join p n = w ++ n ∧ (w = [] ∨ ∃ w2, w = w2 ++ ['/']) := by
  have hn : n ≠ [] := hv.1
  have hsn : splitSlash n = [n] := splitSlash_of_no_slash n hv.2.2.2
  unfold Join
  by_cases hp : p = []
  · simp only [hp, if_true, hn, if_false]
    have := Clean_validName_shape (isRooted n) [] n hv
    simpa [Clean, hsn] using this
  · simp only [hp, hn, if_false]
    have := Clean_validName_shape (isRooted (p ++ '/' :: n)) (splitSlash p) n hv
    simpa [Clean, splitSlash_append_slash, hsn] using this

theorem afterLastSlash_of_no_slash (n : List Char) (h : '/' ∉ n) : afterLastSlash n = n := by
  cases n with
  | nil => rfl
  | cons c cs =>
    have hc : c ≠ '/' := fun e => h (by simp [e])
    have hcs : '/' ∉ cs := fun e => h (List.mem_cons_of_mem _ e)
    simp [afterLastSlash, hc, hcs]

theorem afterLastSlash_append_slash (w n : List Char) (h : '/' ∉ n) :
    afterLastSlash (w ++ '/' :: n) = n := by
  induction w with
  | nil => simp [afterLastSlash, h]
  | cons c cs ih => simp [afterLastSlash, ih]

theorem stripTrailingSlashes_append_validName (w n : List Char) (hv : validName n) :
    stripTrailingSlashes (w ++ n) = w ++ n := by
  unfold stripTrailingSlashes
  rw [List.reverse_append]
  cases hr : n.reverse with
  | nil => exact absurd (List.reverse_eq_nil_iff.mp hr) hv.1
  | cons c m =>
    have hc : c ≠ '/' := by
      intro e
      apply hv.2.2.2
      have : c ∈ n.reverse := by rw [hr]; simp
      rw [← e]
      exact List.mem_reverse.mp this
    simp only [List.cons_append, List.dropWhile_cons, hc, decide_False, Bool.false_eq_true,
      if_false]
    rw [← List.cons_append, ← hr, ← List.reverse_append, List.reverse_reverse]

theorem Base_Join_validName (p n : List Char) (hv : validName n) : Base (Join p n) = n := by
  obtain ⟨w, hw, hshape⟩ := Join_validName_shape p n hv
  have hne : w ++ n ≠ [] := fun e => hv.1 (List.append_eq_nil.mp e).2
  rw [hw]
  unfold Base
  simp only [hne, if_false, stripTrailingSlashes_append_validName w n hv]
  rcases hshape with h | ⟨w2, h⟩
  · subst h
    simp [afterLastSlash_of_no_slash n hv.2.2.2, hv.1]
  · subst h
    have : w2 ++ ['/'] ++ n = w2 ++ '/' :: n := by simp
    rw [this, afterLastSlash_append_slash w2 n hv.2.2.2]
    simp [hv.1]

theorem child_absent_of_parent_not_dir (fs : MemFS) (hwf : wellFormed fs) (k : Key)
    (n : List Char) (h : (findNode fs k).map isDirNode ≠ some true) :
    findNode fs (k ++ [n]) = none := by
  have hne : k ++ [n] ≠ [] := by simp
  simp only [findNode, hne, if_false]
  cases hg : getNode fs (k ++ [n]) with
  | none => rfl
  | some x =>
    exfalso
    have hmem := getNode_some_mem _ _ _ hg
    have := (hwf _ hmem).2 hne
    simp only [List.dropLast_concat] at this
    exact h this

theorem subtree_absent_of_parent_not_dir (fs : MemFS) (hwf : wellFormed fs) (k : Key)
    (n : List Char) (h : (findNode fs k).map isDirNode ≠ some true) :
    ∀ ns, findNode fs (k ++ n :: ns) = none := by
  intro ns
  have hc := child_absent_of_parent_not_dir fs hwf k n h
  by_cases hns : ns = []
  · subst hns; exact hc
  · have hne : k ++ n :: ns ≠ [] := by simp
    simp only [findNode, hne, if_false]
    cases hg : getNode fs (k ++ n :: ns) with
    | none => rfl
    | some x =>
      exfalso
      have := wellFormed_ancestor_dir fs hwf (k ++ [n]) ns hns
        ⟨_, getNode_some_mem _ _ _ hg, by simp⟩
      rw [hc] at this
      simp at this

theorem findNode_filter_some (P : Key → Bool) (fs : MemFS) (k : Key) (n : Node)
    (h : findNode (fs.filter (fun e => P e.1)) k = some n) : findNode fs k = some n := by
  rw [findNode_filter] at h
  by_cases h0 : k = []
  · simp only [h0, if_true] at h
    simpa [h0, findNode] using h
  · simp only [h0, if_false] at h
    by_cases hP : P k = true
    · simpa [hP] using h
    · simp [hP] at h

theorem handleWhiteouts_target_absent (fuel : Nat) (fullPath : Path) (U : List Path)
    (fs : MemFS) (foo : List Char)
    (hbase : Base fullPath = whiteoutPrefix ++ foo) (hfoo : validName foo)
    (hwf : wellFormed fs)
    (hU : ∀ p ∈ U, HasPrefix (Base p) whiteoutPrefix = false)
    (hfuel : enoughFuel fuel (resolve (Dir fullPath)) fs) :
    ∃ err fs2, handleWhiteouts memOS fuel fullPath U fs = some (err, fs2)
      ∧ (∀ ns, findNode fs2 (resolve (Dir fullPath) ++ foo :: ns) = none)
      ∧ ∀ k n, findNode fs2 k = some n → findNode fs k = some n := by
  have hdrop : (Base fullPath).drop whiteoutPrefix.length = foo := by
    rw [hbase]; simp
  have hkey : ∀ ns, resolve (Dir fullPath) ++ foo :: ns ≠ [] := by simp
  by_cases hopq : Base fullPath = whiteoutOpaqueDir
  · -- the opaque marker
    have hfooeq : foo = ['.', 'w', 'h', '.', '.', 'o', 'p', 'q'] := by
      have h1 : whiteoutPrefix ++ foo = whiteoutPrefix ++ ['.', 'w', 'h', '.', '.', 'o', 'p', 'q'] := by
        rw [← hbase, hopq]; rfl
      exact List.append_cancel_left h1
    have hnotU : Join (Dir fullPath) foo ∉ U := by
      intro hmem
      have := hU _ hmem
      rw [Base_Join_validName _ _ hfoo, hfooeq] at this
      exact absurd this (by decide)
    cases hfind : findNode fs (resolve (Dir fullPath)) with
    | none =>
      refine ⟨some (Err.os Errno.ENOENT), fs, ?_, ?_, fun _ _ h => h⟩
      · have hlstat : memOS.lstat fs (Dir fullPath) = .error Errno.ENOENT := by
          show memLstat fs (Dir fullPath) = _
          simp [memLstat, hfind]
        unfold handleWhiteouts
        simp only [hopq, if_true, hlstat]
      · exact subtree_absent_of_parent_not_dir fs hwf _ foo (by rw [hfind]; simp)
    | some node =>
      by_cases hd : isDirNode node = true
      · refine ⟨none, _, handleWhiteouts_opaque_filter fuel fullPath U fs hopq hwf
          (by rw [hfind]; simp [hd]) hfuel, ?_, fun k n h => findNode_filter_some _ fs k n h⟩
        intro ns
        rw [findNode_filter]
        simp only [hkey ns, if_false]
        have : walkKeeps U (Dir fullPath) (resolve (Dir fullPath))
            (resolve (Dir fullPath) ++ foo :: ns) = false := by
          simp [walkKeeps, relTo_append_self, doomed_of_not_mem U _ ns hnotU]
        simp [this]
      · refine ⟨none, fs, ?_, ?_, fun _ _ h => h⟩
        · obtain ⟨hpos, _⟩ := hfuel
          obtain ⟨f, hf⟩ : ∃ f, fuel = f + 1 := ⟨fuel - 1, by omega⟩
          subst hf
          have hlstat : memOS.lstat fs (Dir fullPath)
              = .ok { isDir := isDirNode node, isSymlink := isSymlinkNode node } := by
            show memLstat fs (Dir fullPath) = _
            simp [memLstat, hfind]
          have hfn : walkFn memOS (Dir fullPath) U (Dir fullPath) none fs = (none, fs) := by
            simp [walkFn]
          unfold handleWhiteouts
          simp only [hopq, if_true, hlstat, Walk]
          unfold walk
          simp only [hd, Bool.not_false, if_true, hfn]
        · exact subtree_absent_of_parent_not_dir fs hwf _ foo (by rw [hfind]; simp [hd])
  · -- a whiteout of one name
    refine ⟨none, removeTree fs (resolve (Dir fullPath) ++ [foo]), ?_, ?_,
      fun k n h => findNode_filter_some (fun k2 => (relTo _ k2).isNone) fs k n h⟩
    · have hrm : memOS.removeAll (Join (Dir fullPath) foo) fs
          = (none, removeTree fs (resolve (Dir fullPath) ++ [foo])) :=
        memRemoveAll_Join _ _ fs hfoo
      unfold handleWhiteouts
      simp only [hopq, if_false, hdrop, hrm, osErr, Option.map_none']
    · intro ns
      unfold removeTree
      rw [findNode_filter (fun k2 => (relTo (resolve (Dir fullPath) ++ [foo]) k2).isNone)]
      have : relTo (resolve (Dir fullPath) ++ [foo]) (resolve (Dir fullPath) ++ foo :: ns)
          = some ns := by
        rw [relTo_eq_some_iff]; simp
      simp [this]

theorem unpackLoop_whiteout_step (nsecSize fuel : Nat) (dest : Path) (hdr : Header)
    (content : List Nat) (st : UnpackState MemFS) (foo : List Char)
    (hbase : Base (Join dest hdr.Name) = whiteoutPrefix ++ foo) (hfoo : validName foo)
    (hwf : wellFormed st.fs)
    (hU : ∀ p ∈ st.unpackedPaths, HasPrefix (Base p) whiteoutPrefix = false)
    (hfuel : enoughFuel fuel (resolve (Dir (Join dest hdr.Name))) st.fs) :
    ∃ fs2,
      (∀ rest, unpackLoop memOS nsecSize fuel dest (Rec.entry hdr content :: rest) st
        = unpackLoop memOS nsecSize fuel dest rest { st with fs := fs2 })
      ∧ (∀ ns, findNode fs2 (resolve (Join (Dir (Join dest hdr.Name)) foo) ++ ns) = none)
      ∧ (∀ k n, findNode fs2 k = some n → findNode st.fs k = some n) := by
  obtain ⟨err, fs2, h1, h2, h3⟩ := handleWhiteouts_target_absent fuel (Join dest hdr.Name)
    st.unpackedPaths st.fs foo hbase hfoo hwf hU hfuel
  have hpre : HasPrefix (Base (Join dest hdr.Name)) whiteoutPrefix = true := by
    rw [hbase]; simp [HasPrefix]
  refine ⟨fs2, ?_, ?_, h3⟩
  · intro rest
    simp only [unpackLoop, hpre, if_true, h1]
  · intro ns
    rw [resolve_Join_validName _ _ hfoo]
    simpa using h2 ns

/-! ## The loop keeps the filesystem well-formed -/

theorem isDirNode_findNode_modifyNode (fs : MemFS) (k k2 : Key) (f : Node → Node)
    (hf : ∀ n, findNode fs k = some n → isDirNode (f n) = isDirNode n) :
    (findNode (modifyNode fs k f) k2).map isDirNode = (findNode fs k2).map isDirNode := by
  by_cases h2 : k2 = []
  · simp [h2, findNode]
  · simp only [findNode, h2, if_false, getNode_modifyNode]
    by_cases hk : k = k2
    · subst hk
      simp only [if_true]
      cases hg : getNode fs k with
      | none => rfl
      | some n =>
        have := hf n (by simp [findNode, h2, hg])
        simp [this]
    · simp [hk]

theorem wellFormed_modifyNode (fs : MemFS) (hwf : wellFormed fs) (k : Key) (f : Node → Node)
    (hf : ∀ n, findNode fs k = some n → isDirNode (f n) = isDirNode n) :
    wellFormed (modifyNode fs k f) := by
  intro e he
  unfold modifyNode at he
  obtain ⟨e0, he0, heq⟩ := List.mem_map.mp he
  have hkey : e.1 = e0.1 := by
    rw [← heq]; split <;> rfl
  rw [hkey]
  refine ⟨(hwf e0 he0).1, fun hne => ?_⟩
  rw [isDirNode_findNode_modifyNode fs k e0.1.dropLast f hf]
  exact (hwf e0 he0).2 hne

theorem wellFormed_insertNode (fs : MemFS) (hwf : wellFormed fs) (k : Key) (n : Node)
    (habs : findNode fs k = none)
    (hparent : (findNode fs k.dropLast).map isDirNode = some true)
    (hnames : ∀ x ∈ k, validName x) : wellFormed (insertNode fs k n) := by
  have hk : k ≠ [] := by
    intro h0; rw [h0] at habs; simp [findNode] at habs
  have hlen : k.dropLast ≠ k := by
    intro h
    have := congrArg List.length h
    rw [List.length_dropLast] at this
    have : 0 < k.length := List.length_pos.mpr hk
    omega
  intro e he
  unfold insertNode at he
  rcases List.mem_cons.mp he with h1 | h1
  · subst h1
    refine ⟨hnames, fun _ => ?_⟩
    rw [findNode_insertNode _ _ _ _ hk]
    have : ¬ k = k.dropLast := fun h => hlen h.symm
    simp only [this, if_false]
    exact hparent
  · obtain ⟨he1, _⟩ := List.mem_filter.mp h1
    refine ⟨(hwf e he1).1, fun hne => ?_⟩
    have hp := (hwf e he1).2 hne
    rw [findNode_insertNode _ _ _ _ hk]
    by_cases hkk : k = e.1.dropLast
    · rw [← hkk, habs] at hp
      simp at hp
    · simp only [hkk, if_false]
      exact hp

theorem wellFormed_removeTree (fs : MemFS) (hwf : wellFormed fs) (k : Key) :
    wellFormed (removeTree fs k) := by
  unfold removeTree
  apply wellFormed_filter fs hwf (fun k2 => (relTo k k2).isNone)
  intro k2 hne h
  cases hr : relTo k k2.dropLast with
  | none => rfl
  | some ns =>
    exfalso
    have h1 := (relTo_eq_some_iff _ _ _).mp hr
    have h2 : k2 = k ++ (ns ++ [k2.getLast hne]) := by
      rw [← List.append_assoc, ← h1]
      exact (List.dropLast_append_getLast hne).symm
    rw [(relTo_eq_some_iff _ _ _).mpr h2] at h
    simp at h

theorem wellFormed_memCreate (c : Cred) (kind : Kind) (p : Path) (mode : Nat) (fs : MemFS)
    (hwf : wellFormed fs) : wellFormed (memCreate c kind p mode fs).2 := by
  unfold memCreate
  cases hc : createCheck fs (resolve p) with
  | some e => exact hwf
  | none =>
    simp only
    unfold createCheck at hc
    cases hf : findNode fs (resolve p) with
    | some x => simp [hf] at hc
    | none =>
      simp only [hf, Option.isSome_none, Bool.false_eq_true, if_false] at hc
      apply wellFormed_insertNode fs hwf _ _ hf _ (validNames_resolve p)
      cases hp : findNode fs (resolve p).dropLast with
      | none => simp [hp] at hc
      | some m =>
        rw [hp] at hc
        by_cases hd : isDirNode m = true
        · simp [hd]
        · simp [hd] at hc

theorem wellFormed_memSetMeta (allowed : Node → Bool) (f : Node → Node) (p : Path)
    (fs : MemFS) (hf : ∀ n, isDirNode (f n) = isDirNode n) (hwf : wellFormed fs) :
    wellFormed (memSetMeta allowed f p fs).2 := by
  unfold memSetMeta
  cases findNode fs (resolve p) with
  | none => exact hwf
  | some n =>
    dsimp only
    split_ifs
    · exact wellFormed_modifyNode fs hwf _ f (fun m _ => hf m)
    · exact hwf

theorem wellFormed_memSetMetaFollow (allowed : Node → Bool) (f : Node → Node) (p : Path)
    (fs : MemFS) (hf : ∀ n, isDirNode (f n) = isDirNode n) (hwf : wellFormed fs) :
    wellFormed (memSetMetaFollow allowed f p fs).2 := by
  unfold memSetMetaFollow
  split
  · exact hwf
  · exact wellFormed_memSetMeta allowed f _ fs hf hwf

theorem wellFormed_memOpenFile (c : Cred) (p : Path) (mode : Nat) (fs : MemFS)
    (hwf : wellFormed fs) : wellFormed (memOpenFile c p mode fs).2 := by
  unfold memOpenFile
  split
  · exact hwf
  · next q _ =>
    cases hfind : findNode fs (resolve q) with
    | none => exact wellFormed_memCreate c _ q mode fs hwf
    | some n =>
      dsimp only
      split
      · exact hwf
      · exact hwf
      · split_ifs <;> exact hwf

theorem wellFormed_memCopy (p : Path) (content : List Nat) (fs : MemFS)
    (hwf : wellFormed fs) : wellFormed (memCopy p content fs).2 := by
  unfold memCopy
  split
  · exact hwf
  · next q _ =>
    cases hfind : findNode fs (resolve q) with
    | none => exact hwf
    | some n =>
      dsimp only
      split
      · next old hkind =>
        dsimp only
        apply wellFormed_modifyNode fs hwf
        intro m hm
        rw [hfind] at hm
        injection hm with hm
        subst hm
        simp [isDirNode, hkind]
      · exact hwf
      · exact hwf

theorem wellFormed_memRemoveAll (p : Path) (fs : MemFS) (hwf : wellFormed fs) :
    wellFormed (memRemoveAll p fs).2 := by
  unfold memRemoveAll
  split_ifs
  · exact hwf
  · exact hwf
  · exact wellFormed_removeTree fs hwf _
  · exact wellFormed_removeTree fs hwf _

theorem wellFormed_Chtimes (nsecSize : Nat) (p : Path) (a m : Int) (fs : MemFS)
    (hwf : wellFormed fs) : wellFormed (Chtimes memOS nsecSize p a m fs).2 := by
  unfold Chtimes
  exact wellFormed_memSetMetaFollow _ _ p fs (fun n => rfl) hwf

theorem wellFormed_LUtimesNano (p : Path) (ts : (Int × Int) × (Int × Int)) (fs : MemFS)
    (hwf : wellFormed fs) : wellFormed (LUtimesNano memOS p ts fs).2 := by
  have h1 : wellFormed (memOS.utimensat p ts.1 ts.2 fs).2 :=
    wellFormed_memSetMeta _ _ p fs (fun n => rfl) hwf
  unfold LUtimesNano
  split_ifs
  · exact hwf
  · dsimp only
    split
    · exact h1
    · split_ifs <;> exact h1

theorem wellFormed_setMtimeAndAtime (nsecSize : Nat) (p : Path) (hdr : Header) (fs : MemFS)
    (hwf : wellFormed fs) : wellFormed (setMtimeAndAtime memOS nsecSize p hdr fs).2 := by
  unfold setMtimeAndAtime
  dsimp only
  repeat' split
  all_goals first
    | exact hwf
    | exact wellFormed_Chtimes _ _ _ _ _ hwf
    | exact wellFormed_LUtimesNano _ _ _ hwf

theorem wellFormed_setPermissions (p : Path) (hdr : Header) (fs : MemFS)
    (hwf : wellFormed fs) : wellFormed (setPermissions memOS p hdr fs).2 := by
  have h1 : wellFormed (memOS.lchown p hdr.Uid hdr.Gid fs).2 :=
    wellFormed_memSetMeta _ _ p fs (fun n => rfl) hwf
  have h2 : ∀ s, wellFormed s → wellFormed (memOS.chmod p (fileInfoMode hdr) s).2 :=
    fun s hs => wellFormed_memSetMetaFollow _ _ p s (fun n => rfl) hs
  unfold setPermissions
  rcases hop : memOS.lchown p hdr.Uid hdr.Gid fs with ⟨_ | e, s1⟩
  · rw [hop] at h1
    dsimp only at h1 ⊢
    split_ifs
    · split
      · split_ifs
        · exact h2 s1 h1
        · exact h1
      · exact h1
    · exact h2 s1 h1
    · exact h1
  · rw [hop] at h1
    exact h1

theorem wellFormed_createDirectory (p : Path) (mode : Nat) (fs : MemFS)
    (hwf : wellFormed fs) : wellFormed (createDirectory memOS p mode fs).2 := by
  have h1 : wellFormed (memOS.mkdir p mode fs).2 :=
    wellFormed_memCreate _ _ p mode fs hwf
  unfold createDirectory
  split
  · exact hwf
  · rcases hop : memOS.mkdir p mode fs with ⟨_ | e, s1⟩ <;> rw [hop] at h1 <;> exact h1

theorem wellFormed_createFile (p : Path) (mode : Nat) (content : List Nat) (fs : MemFS)
    (hwf : wellFormed fs) : wellFormed (createFile memOS p mode content fs).2 := by
  have h1 : wellFormed (memOS.openFile p mode fs).2 :=
    wellFormed_memOpenFile _ p mode fs hwf
  have h2 : ∀ s, wellFormed s → wellFormed (memOS.copy p content s).2 :=
    fun s hs => wellFormed_memCopy p content s hs
  unfold createFile
  rcases hop : memOS.openFile p mode fs with ⟨_ | e, s1⟩
  · rw [hop] at h1
    dsimp only at h1 ⊢
    have h3 := h2 s1 h1
    rcases hcp : memOS.copy p content s1 with ⟨_ | e2, s2⟩ <;> rw [hcp] at h3 <;> exact h3
  · rw [hop] at h1
    exact h1

theorem wellFormed_createSymlink (dest p : Path) (hdr : Header) (fs : MemFS)
    (hwf : wellFormed fs) : wellFormed (createSymlink memOS dest p hdr fs).2 := by
  unfold createSymlink
  dsimp only
  split_ifs
  · exact hwf
  · exact wellFormed_memCreate _ _ p _ fs hwf

theorem wellFormed_memMknod (c : Cred) (p : Path) (mode dev : Nat) (fs : MemFS)
    (hwf : wellFormed fs) : wellFormed (memMknod c p mode dev fs).2 := by
  unfold memMknod
  split
  · exact wellFormed_memCreate _ _ p _ fs hwf
  · exact hwf

theorem wellFormed_createBlockCharFifo (p : Path) (hdr : Header) (fs : MemFS)
    (hwf : wellFormed fs) : wellFormed (createBlockCharFifo memOS p hdr fs).2 := by
  unfold createBlockCharFifo
  exact wellFormed_memMknod _ p _ _ fs hwf

theorem wellFormed_handleTarEntry (nsecSize : Nat) (p dest : Path) (hdr : Header)
    (content : List Nat) (fs : MemFS) (hwf : wellFormed fs) :
    wellFormed (handleTarEntry memOS nsecSize p dest hdr content fs).2 := by
  have hD := wellFormed_createDirectory p (fileInfoMode hdr) fs hwf
  have hF := wellFormed_createFile p (fileInfoMode hdr) content fs hwf
  have hB := wellFormed_createBlockCharFifo p hdr fs hwf
  have hS := wellFormed_createSymlink dest p hdr fs hwf
  have hP := fun s1 (h : wellFormed s1) => wellFormed_setPermissions p hdr s1 h
  have hT := fun s2 (h : wellFormed s2) => wellFormed_setMtimeAndAtime nsecSize p hdr s2 h
  unfold handleTarEntry
  dsimp only
  cases hdr.Typeflag <;> dsimp only
  all_goals first
    | exact hwf
    | (split
       · next e s1 heq =>
         first
           | (rw [heq] at hD; exact hD)
           | (rw [heq] at hF; exact hF)
           | (rw [heq] at hB; exact hB)
           | (rw [heq] at hS; exact hS)
       · next s1 heq =>
         have hs1 : wellFormed s1 := by
           first
             | (rw [heq] at hD; exact hD)
             | (rw [heq] at hF; exact hF)
             | (rw [heq] at hB; exact hB)
             | (rw [heq] at hS; exact hS)
         have hp := hP s1 hs1
         split
         · next e2 s2 heq2 => rw [heq2] at hp; exact hp
         · next s2 heq2 => rw [heq2] at hp; exact hT s2 hp)

theorem walkNames_preserves {σ : Type} (o : OS σ) (Inv : σ → Prop)
    (fn : Path → Option Errno → σ → Option Err × σ)
    (hfn : ∀ p e s, Inv s → Inv (fn p e s).2)
    (self : Path → FileInfo → σ → Option (Option Err × σ))
    (hself : ∀ p i s r, Inv s → self p i s = some r → Inv r.2) (path : Path)
    (names : List (List Char)) :
    ∀ s r, Inv s → walkNames o fn self path names s = some r → Inv r.2 := by
  induction names with
  | nil =>
    intro s r hs h
    simp only [walkNames, Option.some.injEq] at h
    rw [← h]; exact hs
  | cons n rest ih =>
    intro s r hs h
    simp only [walkNames] at h
    split at h
    · next e heq =>
      have h1 := hfn (Join path n) (some e) s hs
      split at h
      · next e1 s1 heq1 =>
        rw [heq1] at h1
        simp only [Option.some.injEq] at h
        rw [← h]; exact h1
      · next s1 heq1 =>
        rw [heq1] at h1
        exact ih s1 r h1 h
    · next fi heq =>
      split at h
      · simp at h
      · next e1 s1 heq1 =>
        have := hself _ _ _ _ hs heq1
        simp only [Option.some.injEq] at h
        rw [← h]; exact this
      · next s1 heq1 =>
        have := hself _ _ _ _ hs heq1
        exact ih s1 r this h

theorem walk_preserves {σ : Type} (o : OS σ) (Inv : σ → Prop)
    (fn : Path → Option Errno → σ → Option Err × σ)
    (hfn : ∀ p e s, Inv s → Inv (fn p e s).2) (fuel : Nat) :
    ∀ p i s r, Inv s → walk o fn fuel p i s = some r → Inv r.2 := by
  induction fuel with
  | zero => intro p i s r _ h; simp [walk] at h
  | succ fuel ih =>
    intro p i s r hs h
    unfold walk at h
    split_ifs at h
    · simp only [Option.some.injEq] at h
      rw [← h]; exact hfn _ _ _ hs
    · split at h
      · simp only [Option.some.injEq] at h
        rw [← h]; exact hfn _ _ _ hs
      · next names heq =>
        have h1 := hfn p none s hs
        split at h
        · next e1 s1 heq1 =>
          rw [heq1] at h1
          simp only [Option.some.injEq] at h
          rw [← h]; exact h1
        · next s1 heq1 =>
          rw [heq1] at h1
          exact walkNames_preserves o Inv fn hfn _ ih p names s1 r h1 h

theorem wellFormed_walkFn (dir : Path) (U : List Path) (p : Path) (e : Option Errno)
    (s : MemFS) (hwf : wellFormed s) : wellFormed (walkFn memOS dir U p e s).2 := by
  unfold walkFn
  repeat' split
  all_goals first
    | exact hwf
    | exact wellFormed_memRemoveAll _ _ hwf

theorem wellFormed_handleWhiteouts (fuel : Nat) (destPath : Path) (U : List Path)
    (fs : MemFS) (hwf : wellFormed fs) (r : Option Err × MemFS)
    (h : handleWhiteouts memOS fuel destPath U fs = some r) : wellFormed r.2 := by
  unfold handleWhiteouts at h
  dsimp only at h
  split_ifs at h
  · split at h
    · simp only [Option.some.injEq] at h
      rw [← h]; exact hwf
    · unfold Walk at h
      split at h
      · simp only [Option.some.injEq] at h
        rw [← h]; exact wellFormed_walkFn _ _ _ _ _ hwf
      · exact walk_preserves memOS wellFormed _ (fun p e s hs => wellFormed_walkFn _ _ p e s hs)
          fuel _ _ _ r hwf h
  · simp only [Option.some.injEq] at h
    rw [← h]
    exact wellFormed_memRemoveAll _ _ hwf

/-- The invariant of the loop of `unpackTar` on the in-memory filesystem: the
filesystem stays well-formed and no unpacked path has a whiteout base. -/
theorem unpackLoop_invariant (nsecSize fuel : Nat) (dest : Path) (r : List Rec) :
    ∀ (st : UnpackState MemFS) (res : Option Err × UnpackState MemFS),
      wellFormed st.fs →
      (∀ p ∈ st.unpackedPaths, HasPrefix (Base p) whiteoutPrefix = false) →
      unpackLoop memOS nsecSize fuel dest r st = some res →
      wellFormed res.2.fs
        ∧ ∀ p ∈ res.2.unpackedPaths, HasPrefix (Base p) whiteoutPrefix = false := by
  induction r with
  | nil =>
    intro st res hwf hU h
    simp only [unpackLoop, Option.some.injEq] at h
    rw [← h]; exact ⟨hwf, hU⟩
  | cons x rest ih =>
    intro st res hwf hU h
    cases x with
    | readError =>
      simp only [unpackLoop, Option.some.injEq] at h
      rw [← h]; exact ⟨hwf, hU⟩
    | entry hdr content =>
      unfold unpackLoop at h
      dsimp only at h
      by_cases hpre : HasPrefix (Base (Join dest hdr.Name)) whiteoutPrefix = true
      · rw [if_pos hpre] at h
        split at h
        · simp at h
        · next e s1 heq =>
          have hw1 : wellFormed s1 := wellFormed_handleWhiteouts _ _ _ _ hwf _ heq
          exact ih { fs := s1, unpackedPaths := st.unpackedPaths, dirs := st.dirs } res hw1 hU h
      · rw [if_neg hpre] at h
        have h1 := wellFormed_handleTarEntry nsecSize (Join dest hdr.Name) dest hdr content
          st.fs hwf
        split at h
        · next e s1 heq =>
          rw [heq] at h1
          simp only [Option.some.injEq] at h
          rw [← h]; exact ⟨h1, hU⟩
        · next s1 heq =>
          rw [heq] at h1
          refine ih _ res h1 ?_ h
          intro q hq
          rcases List.mem_cons.mp hq with hq1 | hq1
          · rw [hq1]; simpa using hpre
          · exact hU q hq1

/-! ## Streams of whiteouts -/

theorem handleWhiteouts_returns (fuel : Nat) (destPath : Path) (U : List Path) (fs : MemFS)
    (hwf : wellFormed fs) (hfuel : enoughFuel fuel [] fs) :
    ∃ err fs2, handleWhiteouts memOS fuel destPath U fs = some (err, fs2)
      ∧ ∀ x ∈ fs2, x ∈ fs := by
  obtain ⟨hpos, hdepth⟩ := hfuel
  have hfuel2 : ∀ k, enoughFuel fuel k fs := fun k =>
    ⟨hpos, fun e he => by have := hdepth e he; simp at this; omega⟩
  by_cases hopq : Base destPath = whiteoutOpaqueDir
  · cases hfind : findNode fs (resolve (Dir destPath)) with
    | none =>
      refine ⟨some (Err.os Errno.ENOENT), fs, ?_, fun _ h => h⟩
      have hlstat : memOS.lstat fs (Dir destPath) = .error Errno.ENOENT := by
        show memLstat fs (Dir destPath) = _
        simp [memLstat, hfind]
      unfold handleWhiteouts
      simp only [hopq, if_true, hlstat]
    | some node =>
      by_cases hd : isDirNode node = true
      · exact ⟨none, _, handleWhiteouts_opaque_filter fuel destPath U fs hopq hwf
          (by rw [hfind]; simp [hd]) (hfuel2 _), fun x hx => (List.mem_filter.mp hx).1⟩
      · refine ⟨none, fs, ?_, fun _ h => h⟩
        obtain ⟨f, hf⟩ : ∃ f, fuel = f + 1 := ⟨fuel - 1, by omega⟩
        subst hf
        have hlstat : memOS.lstat fs (Dir destPath)
            = .ok { isDir := isDirNode node, isSymlink := isSymlinkNode node } := by
          show memLstat fs (Dir destPath) = _
          simp [memLstat, hfind]
        have hfn : walkFn memOS (Dir destPath) U (Dir destPath) none fs = (none, fs) := by
          simp [walkFn]
        unfold handleWhiteouts
        simp only [hopq, if_true, hlstat, Walk]
        unfold walk
        simp only [hd, Bool.not_false, if_true, hfn]
  · have hsub : ∀ p, ∀ x ∈ (memRemoveAll p fs).2, x ∈ fs := by
      intro p x hx
      unfold memRemoveAll at hx
      split_ifs at hx
      · exact hx
      · exact hx
      · exact (List.mem_filter.mp hx).1
      · exact (List.mem_filter.mp hx).1
    refine ⟨osErr (memRemoveAll (Join (Dir destPath)
        ((Base destPath).drop whiteoutPrefix.length)) fs).1,
      (memRemoveAll (Join (Dir destPath) ((Base destPath).drop whiteoutPrefix.length)) fs).2,
      ?_, hsub _⟩
    unfold handleWhiteouts
    simp only [hopq, if_false]
    rfl

theorem unpackLoop_whiteouts_returns (nsecSize fuel : Nat) (dest : Path) (r : List Rec) :
    ∀ (st : UnpackState MemFS), (∀ x ∈ r, isWhiteoutEntry dest x = true) →
      wellFormed st.fs → enoughFuel fuel [] st.fs →
      ∃ st2, unpackLoop memOS nsecSize fuel dest r st = some (none, st2)
        ∧ st2.dirs = st.dirs ∧ ∀ x ∈ st2.fs, x ∈ st.fs := by
  induction r with
  | nil => intro st _ _ _; exact ⟨st, rfl, rfl, fun _ h => h⟩
  | cons x rest ih =>
    intro st hall hwf hfuel
    cases x with
    | readError =>
      have := hall Rec.readError (List.mem_cons_self _ _)
      simp [isWhiteoutEntry] at this
    | entry hdr content =>
      have hpre : HasPrefix (Base (Join dest hdr.Name)) whiteoutPrefix = true := by
        simpa [isWhiteoutEntry] using hall _ (List.mem_cons_self _ _)
      obtain ⟨err, fs2, h1, h2⟩ := handleWhiteouts_returns fuel (Join dest hdr.Name)
        st.unpackedPaths st.fs hwf hfuel
      have hwf2 : wellFormed fs2 := wellFormed_handleWhiteouts _ _ _ _ hwf _ h1
      have hfuel2 : enoughFuel fuel [] fs2 := ⟨hfuel.1, fun e he => hfuel.2 e (h2 e he)⟩
      obtain ⟨st2, h3, h4, h5⟩ := ih
        { fs := fs2, unpackedPaths := st.unpackedPaths, dirs := st.dirs }
        (fun y hy => hall y (List.mem_cons_of_mem _ hy)) hwf2 hfuel2
      refine ⟨st2, ?_, h4, fun x hx => h2 x (h5 x hx)⟩
      simp only [unpackLoop, hpre, if_true, h1]
      exact h3

/-! ## A whiteout in the middle of a stream -/

theorem unpackLoop_append (nsecSize fuel : Nat) (dest : Path) (pre r2 : List Rec) :
    ∀ (st st2 : UnpackState MemFS),
      unpackLoop memOS nsecSize fuel dest pre st = some (none, st2) →
      unpackLoop memOS nsecSize fuel dest (pre ++ r2) st
        = unpackLoop memOS nsecSize fuel dest r2 st2 := by
  induction pre with
  | nil =>
    intro st st2 h
    simp only [unpackLoop, Option.some.injEq, Prod.mk.injEq, true_and] at h
    subst h; rfl
  | cons x rest ih =>
    intro st st2 h
    cases x with
    | readError => simp [unpackLoop] at h
    | entry hdr content =>
      unfold unpackLoop at h
      dsimp only at h
      rw [List.cons_append]
      by_cases hpre : HasPrefix (Base (Join dest hdr.Name)) whiteoutPrefix = true
      · rw [if_pos hpre] at h
        split at h
        · simp at h
        · next e s1 heq =>
          simp only [unpackLoop, hpre, if_true, heq]
          exact ih _ st2 h
      · rw [if_neg hpre] at h
        split at h
        · simp at h
        · next s1 heq =>
          simp only [unpackLoop, hpre, if_false, heq]
          exact ih _ st2 h

/-- C3: let `unpackTar` have gone through the records `pre` of a stream
without error, from a well-formed filesystem, and come to an entry whose
joined path has the base `.wh.foo` (`foo` a name) in the directory `D`.  Then
right after the entry `D/foo` does not exist, nor anything below it, whether
it was there from the start, was unpacked by `pre`, or never was; no object
has been created (so none at `D/.wh.foo`); and the loop goes on with the rest
of the stream, the unpacked paths and the directory list unchanged.  The fuel
is enough for the depth of the tree at that point. -/
theorem unpackLoop_whiteout_memOS (nsecSize fuel : Nat) (dest : Path) (pre : List Rec)
    (hdr : Header) (content : List Nat) (fs0 : MemFS) (st : UnpackState MemFS)
    (foo : List Char) (hwf : wellFormed fs0)
    (hpre : unpackLoop memOS nsecSize fuel dest pre
      { fs := fs0, unpackedPaths := [], dirs := [] } = some (none, st))
    (hbase : Base (Join dest hdr.Name) = whiteoutPrefix ++ foo) (hfoo : validName foo)
    (hfuel : enoughFuel fuel (resolve (Dir (Join dest hdr.Name))) st.fs) :
    ∃ fs2,
      (∀ rest, unpackLoop memOS nsecSize fuel dest (pre ++ Rec.entry hdr content :: rest)
          { fs := fs0, unpackedPaths := [], dirs := [] }
        = unpackLoop memOS nsecSize fuel dest rest { st with fs := fs2 })
      ∧ (∀ ns, findNode fs2 (resolve (Join (Dir (Join dest hdr.Name)) foo) ++ ns) = none)
      ∧ (∀ k n, findNode fs2 k = some n → findNode st.fs k = some n) := by
  obtain ⟨hwf1, hU1⟩ := unpackLoop_invariant nsecSize fuel dest pre _ _ hwf (by simp) hpre
  obtain ⟨fs2, h1, h2, h3⟩ := unpackLoop_whiteout_step nsecSize fuel dest hdr content st foo
    hbase hfoo hwf1 hU1 hfuel
  refine ⟨fs2, fun rest => ?_, h2, h3⟩
  rw [unpackLoop_append nsecSize fuel dest pre _ _ st hpre]
  exact h1 rest

/-- C3 (witness): the statement for the stream that unpacks the file `foo`
into `/dest` and then has the entry `.wh.foo`. -/
theorem unpackLoop_whiteout_memOS_witness :
    ∃ fs2,
      (∀ rest, unpackLoop memOS 8 3 "/dest".toList
          ([Rec.entry { Name := "foo".toList, Typeflag := Typeflag.TypeReg } [1]]
            ++ Rec.entry { Name := ".wh.foo".toList, Typeflag := Typeflag.TypeReg } [] :: rest)
          { fs := [(["dest".toList], { kind := Kind.dir })], unpackedPaths := [], dirs := [] }
        = unpackLoop memOS 8 3 "/dest".toList rest
            { fs := fs2, unpackedPaths := ["/dest/foo".toList], dirs := [] })
      ∧ (∀ ns, findNode fs2
          (resolve (Join (Dir (Join "/dest".toList ".wh.foo".toList)) "foo".toList) ++ ns) = none)
      ∧ (∀ k n, findNode fs2 k = some n →
          findNode [(["dest".toList, "foo".toList], { kind := Kind.file [1] }),
                    (["dest".toList], { kind := Kind.dir })] k = some n) :=
  unpackLoop_whiteout_memOS 8 3 "/dest".toList
    [Rec.entry { Name := "foo".toList, Typeflag := Typeflag.TypeReg } [1]]
    { Name := ".wh.foo".toList, Typeflag := Typeflag.TypeReg } []
    [(["dest".toList], { kind := Kind.dir })]
    { fs := [(["dest".toList, "foo".toList], { kind := Kind.file [1] }),
             (["dest".toList], { kind := Kind.dir })],
      unpackedPaths := ["/dest/foo".toList], dirs := [] }
    "foo".toList (by decide) (by rfl) (by rfl) (by decide) (by decide)

/-! ## Unpacking regular files over what is there -/

theorem keepsObjects_refl (c : Cred) (fs : MemFS) : keepsObjects c fs fs :=
  fun _ => ⟨rfl, fun n hn => ⟨n, hn, id, id, fun _ h => h⟩⟩

theorem keepsObjects_trans (c : Cred) (fs1 fs2 fs3 : MemFS) (h12 : keepsObjects c fs1 fs2)
    (h23 : keepsObjects c fs2 fs3) : keepsObjects c fs1 fs3 := by
  intro k
  refine ⟨(h23 k).1.trans (h12 k).1, fun n hn => ?_⟩
  obtain ⟨n2, hn2, a1, a2, a3⟩ := (h12 k).2 n hn
  obtain ⟨n3, hn3, b1, b2, b3⟩ := (h23 k).2 n2 hn2
  exact ⟨n3, hn3, fun h => b1 (a1 h), fun h => b2 (a2 h), fun h1 h2 => b3 (a2 h1) (a3 h1 h2)⟩

theorem followLinks_succ (fs : MemFS) (d : Nat) (p : Path) :
    followLinks fs (d + 1) p
      = match (findNode fs (resolve p)).bind linkTarget with
        | some t =>
          if t = [] then .error Errno.ENOENT
          else followLinks fs d (if isRooted t then t else Join (Dir p) t)
        | none => .ok p := by
  rw [followLinks]
  cases hf : findNode fs (resolve p) with
  | none => rfl
  | some n =>
    cases hk : n.kind <;> simp [linkTarget, hk]

theorem followLinks_keepsObjects (c : Cred) (fs fs2 : MemFS) (h : keepsObjects c fs fs2)
    (d : Nat) : ∀ p, followLinks fs2 d p = followLinks fs d p := by
  induction d with
  | zero => intro p; rfl
  | succ d ih =>
    intro p
    rw [followLinks_succ, followLinks_succ, (h (resolve p)).1]
    cases (findNode fs (resolve p)).bind linkTarget with
    | none => rfl
    | some t =>
      dsimp only
      rw [ih]

theorem reopens_keepsObjects (c : Cred) (fs fs2 : MemFS) (h : keepsObjects c fs fs2)
    (p : Path) (hr : reopens c fs p) : reopens c fs2 p := by
  obtain ⟨q, n, m, hq, hn, hw, hc, hmw, hm, hmc⟩ := hr
  obtain ⟨n2, hn2, a1, a2, a3⟩ := (h (resolve q)).2 n hn
  obtain ⟨m2, hm2, _, b2, _⟩ := (h (resolve p)).2 m hm
  exact ⟨q, n2, m2, by rw [followLinks_keepsObjects c fs fs2 h]; exact hq, hn2, a1 hw, a2 hc,
    a3 hc hmw, hm2, b2 hmc⟩

theorem findNode_modifyNode_any (fs : MemFS) (k k2 : Key) (f : Node → Node) :
    findNode (modifyNode fs k f) k2
      = if k = k2 ∧ k2 ≠ [] then (findNode fs k2).map f else findNode fs k2 := by
  by_cases h2 : k2 = []
  · simp [h2, findNode]
  · simp only [findNode, h2, if_false, getNode_modifyNode, ne_eq, not_false_eq_true, and_true]

theorem keepsObjects_modifyNode (c : Cred) (fs : MemFS) (k : Key) (f : Node → Node)
    (hf : ∀ n, findNode fs k = some n →
      linkTarget (f n) = linkTarget n
      ∧ (isWritableNode n = true → isWritableNode (f n) = true)
      ∧ (mayChange c n = true → mayChange c (f n) = true)
      ∧ (mayChange c n = true → mayWrite c n = true → mayWrite c (f n) = true)) :
    keepsObjects c fs (modifyNode fs k f) := by
  intro k2
  rw [findNode_modifyNode_any]
  by_cases hk : k = k2 ∧ k2 ≠ []
  · rw [if_pos hk]
    obtain ⟨hk1, _⟩ := hk
    subst hk1
    cases hfind : findNode fs k with
    | none => exact ⟨rfl, fun n hn => by simp at hn⟩
    | some n =>
      obtain ⟨a0, a1, a2, a3⟩ := hf n hfind
      refine ⟨by simpa using a0, fun n1 hn1 => ?_⟩
      injection hn1 with hn1
      subst hn1
      exact ⟨f n, rfl, a1, a2, a3⟩
  · rw [if_neg hk]
    exact ⟨rfl, fun n hn => ⟨n, hn, id, id, fun _ h => h⟩⟩

theorem keepsObjects_insertNode (c : Cred) (fs : MemFS) (k : Key) (x : Node)
    (habs : findNode fs k = none) (hx : linkTarget x = none) :
    keepsObjects c fs (insertNode fs k x) := by
  have hk : k ≠ [] := by
    intro h0; rw [h0] at habs; simp [findNode] at habs
  intro k2
  rw [findNode_insertNode _ _ _ _ hk]
  by_cases hkk : k = k2
  · subst hkk
    rw [if_pos rfl, habs]
    exact ⟨by simpa using hx, fun n hn => by simp at hn⟩
  · rw [if_neg hkk]
    exact ⟨rfl, fun n hn => ⟨n, hn, id, id, fun _ h => h⟩⟩

theorem keepsObjects_memCreate (c : Cred) (kind : Kind) (p : Path) (mode : Nat) (fs : MemFS)
    (hkind : ∀ t, kind ≠ Kind.symlink t) :
    keepsObjects c fs (memCreate c kind p mode fs).2 := by
  unfold memCreate
  cases hc : createCheck fs (resolve p) with
  | some e => exact keepsObjects_refl c fs
  | none =>
    dsimp only
    apply keepsObjects_insertNode
    · unfold createCheck at hc
      cases hf : findNode fs (resolve p) with
      | none => rfl
      | some x => simp [hf] at hc
    · cases kind <;> simp [linkTarget] at hkind ⊢

theorem memSetMeta_post (allowed : Node → Bool) (f : Node → Node) (p : Path) (fs : MemFS)
    (h : (memSetMeta allowed f p fs).1 = none) :
    ∃ m, findNode fs (resolve p) = some m ∧ allowed m = true
      ∧ (memSetMeta allowed f p fs).2 = modifyNode fs (resolve p) f := by
  unfold memSetMeta at h ⊢
  cases hf : findNode fs (resolve p) with
  | none => rw [hf] at h; simp at h
  | some m =>
    rw [hf] at h
    dsimp only at h ⊢
    by_cases ha : allowed m = true
    · exact ⟨m, rfl, ha, by simp [ha]⟩
    · simp [ha] at h

theorem memSetMeta_pre (allowed : Node → Bool) (f : Node → Node) (p : Path) (fs : MemFS)
    (m : Node) (hm : findNode fs (resolve p) = some m) (ha : allowed m = true) :
    (memSetMeta allowed f p fs).1 = none := by
  simp [memSetMeta, hm, ha]

theorem keepsObjects_memSetMeta (c : Cred) (allowed : Node → Bool) (f : Node → Node)
    (p : Path) (fs : MemFS)
    (hf : ∀ n, allowed n = true →
      linkTarget (f n) = linkTarget n
      ∧ (isWritableNode n = true → isWritableNode (f n) = true)
      ∧ (mayChange c n = true → mayChange c (f n) = true)
      ∧ (mayChange c n = true → mayWrite c n = true → mayWrite c (f n) = true)) :
    keepsObjects c fs (memSetMeta allowed f p fs).2 := by
  unfold memSetMeta
  cases hfind : findNode fs (resolve p) with
  | none => exact keepsObjects_refl c fs
  | some m =>
    dsimp only
    by_cases ha : allowed m = true
    · simp only [ha, if_true]
      apply keepsObjects_modifyNode
      intro n hn
      rw [hfind] at hn
      injection hn with hn
      subst hn
      exact hf _ ha
    · simp only [ha, Bool.false_eq_true, if_false]
      exact keepsObjects_refl c fs

theorem memSetMetaFollow_post (allowed : Node → Bool) (f : Node → Node) (p : Path)
    (fs : MemFS) (h : (memSetMetaFollow allowed f p fs).1 = none) :
    ∃ q n, followLinks fs (maxSymlinks + 1) p = .ok q ∧ findNode fs (resolve q) = some n
      ∧ allowed n = true
      ∧ (memSetMetaFollow allowed f p fs).2 = modifyNode fs (resolve q) f := by
  unfold memSetMetaFollow at h ⊢
  cases hq : followLinks fs (maxSymlinks + 1) p with
  | error e => rw [hq] at h; simp at h
  | ok q =>
    rw [hq] at h
    dsimp only at h ⊢
    obtain ⟨n, hn, ha, h2⟩ := memSetMeta_post allowed f q fs h
    exact ⟨q, n, rfl, hn, ha, h2⟩

theorem memSetMetaFollow_pre (allowed : Node → Bool) (f : Node → Node) (p q : Path)
    (fs : MemFS) (n : Node) (hq : followLinks fs (maxSymlinks + 1) p = .ok q)
    (hn : findNode fs (resolve q) = some n) (ha : allowed n = true) :
    (memSetMetaFollow allowed f p fs).1 = none := by
  unfold memSetMetaFollow
  rw [hq]
  exact memSetMeta_pre allowed f q fs n hn ha

theorem keepsObjects_memSetMetaFollow (c : Cred) (allowed : Node → Bool) (f : Node → Node)
    (p : Path) (fs : MemFS)
    (hf : ∀ n, allowed n = true →
      linkTarget (f n) = linkTarget n
      ∧ (isWritableNode n = true → isWritableNode (f n) = true)
      ∧ (mayChange c n = true → mayChange c (f n) = true)
      ∧ (mayChange c n = true → mayWrite c n = true → mayWrite c (f n) = true)) :
    keepsObjects c fs (memSetMetaFollow allowed f p fs).2 := by
  unfold memSetMetaFollow
  split
  · exact keepsObjects_refl c fs
  · exact keepsObjects_memSetMeta c allowed f _ fs hf

theorem keepsObjects_memOpenFile (c : Cred) (p : Path) (mode : Nat) (fs : MemFS) :
    keepsObjects c fs (memOpenFile c p mode fs).2 := by
  unfold memOpenFile
  split
  · exact keepsObjects_refl c fs
  · next q _ =>
    cases hfind : findNode fs (resolve q) with
    | none => exact keepsObjects_memCreate c _ q mode fs (fun t => by simp)
    | some n =>
      dsimp only
      split
      · exact keepsObjects_refl c fs
      · exact keepsObjects_refl c fs
      · split_ifs <;> exact keepsObjects_refl c fs

theorem memOpenFile_pre (c : Cred) (p q : Path) (mode : Nat) (fs : MemFS) (n : Node)
    (hq : followLinks fs (maxSymlinks + 1) p = .ok q)
    (hn : findNode fs (resolve q) = some n) (hw : isWritableNode n = true)
    (hm : mayWrite c n = true) : memOpenFile c p mode fs = (none, fs) := by
  unfold memOpenFile
  rw [hq]
  dsimp only
  rw [hn]
  dsimp only
  cases hk : n.kind with
  | dir => simp [isWritableNode, hk] at hw
  | symlink t => simp [isWritableNode, hk] at hw
  | file old => simp [hm]
  | special md dv => simp [hm]

theorem memOpenFile_post (c : Cred) (p : Path) (mode : Nat) (fs : MemFS)
    (hmode : c.euid = 0 ∨ ownerMayWrite mode = true)
    (h : (memOpenFile c p mode fs).1 = none) :
    ∃ q n, followLinks fs (maxSymlinks + 1) p = .ok q
      ∧ findNode (memOpenFile c p mode fs).2 (resolve q) = some n
      ∧ isWritableNode n = true ∧ mayWrite c n = true := by
  unfold memOpenFile at h ⊢
  cases hq : followLinks fs (maxSymlinks + 1) p with
  | error e => rw [hq] at h; simp at h
  | ok q =>
    rw [hq] at h
    dsimp only at h ⊢
    cases hfind : findNode fs (resolve q) with
    | none =>
      rw [hfind] at h
      dsimp only at h ⊢
      have hK : resolve q ≠ [] := by
        intro h0; rw [h0] at hfind; simp [findNode] at hfind
      unfold memCreate at h ⊢
      cases hc : createCheck fs (resolve q) with
      | some e => rw [hc] at h; simp at h
      | none =>
        dsimp only
        refine ⟨q, _, rfl, by rw [findNode_insertNode _ _ _ _ hK, if_pos rfl],
          by simp [isWritableNode], ?_⟩
        rcases hmode with h0 | h0
        · simp [mayWrite, h0]
        · simp only [ownerMayWrite] at h0
          simp [mayWrite, h0]
    | some n =>
      rw [hfind] at h
      dsimp only at h ⊢
      cases hk : n.kind with
      | dir => simp [hk] at h
      | symlink t => simp [hk] at h
      | file old =>
        by_cases hm : mayWrite c n = true
        · exact ⟨q, n, rfl, by simp [hk, hm, hfind], by simp [isWritableNode, hk], hm⟩
        · simp [hk, hm] at h
      | special md dv =>
        by_cases hm : mayWrite c n = true
        · exact ⟨q, n, rfl, by simp [hk, hm, hfind], by simp [isWritableNode, hk], hm⟩
        · simp [hk, hm] at h

theorem keepsObjects_memCopy (c : Cred) (p : Path) (content : List Nat) (fs : MemFS) :
    keepsObjects c fs (memCopy p content fs).2 := by
  unfold memCopy
  split
  · exact keepsObjects_refl c fs
  · next q _ =>
    cases hfind : findNode fs (resolve q) with
    | none => exact keepsObjects_refl c fs
    | some n =>
      dsimp only
      split
      · next old hkind =>
        dsimp only
        apply keepsObjects_modifyNode
        intro m hm
        rw [hfind] at hm
        injection hm with hm
        subst hm
        refine ⟨by simp [linkTarget, hkind], fun _ => by simp [isWritableNode],
          fun h => by simpa [mayChange] using h, fun _ h => by simpa [mayWrite] using h⟩
      · exact keepsObjects_refl c fs
      · exact keepsObjects_refl c fs

theorem memCopy_pre (p q : Path) (content : List Nat) (fs : MemFS) (n : Node)
    (hq : followLinks fs (maxSymlinks + 1) p = .ok q)
    (hn : findNode fs (resolve q) = some n) (hw : isWritableNode n = true) :
    (memCopy p content fs).1 = none := by
  unfold memCopy
  rw [hq]
  dsimp only
  rw [hn]
  dsimp only
  cases hk : n.kind with
  | dir => simp [isWritableNode, hk] at hw
  | symlink t => simp [isWritableNode, hk] at hw
  | file old => rfl
  | special md dv => rfl

theorem chown_keeps (c : Cred) (uid gid : Nat) (n : Node)
    (ha : mayChown c uid gid n = true) :
    linkTarget { n with uid := uid, gid := gid } = linkTarget n
    ∧ (isWritableNode n = true → isWritableNode { n with uid := uid, gid := gid } = true)
    ∧ (mayChange c n = true → mayChange c { n with uid := uid, gid := gid } = true)
    ∧ (mayChange c n = true → mayWrite c n = true →
        mayWrite c { n with uid := uid, gid := gid } = true) := by
  refine ⟨rfl, fun h => h, fun _ => ?_, fun _ hw => ?_⟩
  · simp only [mayChown, Bool.or_eq_true, Bool.and_eq_true, decide_eq_true_eq] at ha
    simp only [mayChange, Bool.or_eq_true, decide_eq_true_eq]
    rcases ha with h0 | ⟨⟨_, h2⟩, _⟩
    · exact Or.inl h0
    · exact Or.inr h2
  · simp only [mayChown, Bool.or_eq_true, Bool.and_eq_true, decide_eq_true_eq] at ha
    rcases ha with h0 | ⟨⟨h1, h2⟩, _⟩
    · simp [mayWrite, h0]
    · by_cases h0 : c.euid = 0
      · simp [mayWrite, h0]
      · simp only [mayWrite, h0, decide_False, Bool.false_or, h1, if_true] at hw
        simp only [mayWrite, h0, decide_False, Bool.false_or, h2, if_true]
        exact hw

theorem chmod_keeps (c : Cred) (mode : Nat) (n : Node)
    (hmode : c.euid = 0 ∨ ownerMayWrite mode = true) :
    linkTarget { n with mode := mode } = linkTarget n
    ∧ (isWritableNode n = true → isWritableNode { n with mode := mode } = true)
    ∧ (mayChange c n = true → mayChange c { n with mode := mode } = true)
    ∧ (mayChange c n = true → mayWrite c n = true →
        mayWrite c { n with mode := mode } = true) := by
  refine ⟨rfl, fun h => h, fun h => h, fun hc _ => ?_⟩
  by_cases h0 : c.euid = 0
  · simp [mayWrite, h0]
  · have hu : n.uid = c.euid := by simpa [mayChange, h0] using hc
    have hm : ownerMayWrite mode = true := by
      rcases hmode with h | h
      · exact absurd h h0
      · exact h
    simp only [ownerMayWrite] at hm
    simp only [mayWrite, h0, decide_False, Bool.false_or, hu, if_true]
    exact hm

theorem chtimes_keeps (c : Cred) (a m : Int) (n : Node) :
    linkTarget { n with atime := a, mtime := m } = linkTarget n
    ∧ (isWritableNode n = true → isWritableNode { n with atime := a, mtime := m } = true)
    ∧ (mayChange c n = true → mayChange c { n with atime := a, mtime := m } = true)
    ∧ (mayChange c n = true → mayWrite c n = true →
        mayWrite c { n with atime := a, mtime := m } = true) :=
  ⟨rfl, fun h => h, fun h => h, fun _ h => h⟩

/-- The calls `handleTarEntry` makes for a regular-file entry, one after the
other, and what it returns from their results. -/
theorem handleTarEntry_regular_steps (c : Cred) (nsecSize : Nat) (p dest : Path)
    (hdr : Header) (content : List Nat) (fs : MemFS)
    (hreg : hdr.Typeflag = Typeflag.TypeReg ∨ hdr.Typeflag = Typeflag.TypeRegA) :
    ∃ e1 s1 e2 s2 e3 s3 e4 s4 e5 s5 a m,
      memOpenFile c p (fileInfoMode hdr) fs = (e1, s1)
      ∧ memCopy p content s1 = (e2, s2)
      ∧ memSetMeta (mayChown c hdr.Uid hdr.Gid)
          (fun n => { n with uid := hdr.Uid, gid := hdr.Gid }) p s2 = (e3, s3)
      ∧ memSetMetaFollow (mayChange c) (fun n => { n with mode := fileInfoMode hdr }) p s3
          = (e4, s4)
      ∧ memSetMetaFollow (mayChange c) (fun n => { n with atime := a, mtime := m }) p s4
          = (e5, s5)
      ∧ ((e1 ≠ none ∧ (handleTarEntry (memOSAs c) nsecSize p dest hdr content fs).1 ≠ none
            ∧ (handleTarEntry (memOSAs c) nsecSize p dest hdr content fs).2 = s1)
        ∨ (e1 = none ∧ e2 ≠ none
            ∧ (handleTarEntry (memOSAs c) nsecSize p dest hdr content fs).1 ≠ none
            ∧ (handleTarEntry (memOSAs c) nsecSize p dest hdr content fs).2 = s2)
        ∨ (e1 = none ∧ e2 = none ∧ e3 ≠ none
            ∧ (handleTarEntry (memOSAs c) nsecSize p dest hdr content fs).1 ≠ none
            ∧ (handleTarEntry (memOSAs c) nsecSize p dest hdr content fs).2 = s3)
        ∨ (e1 = none ∧ e2 = none ∧ e3 = none ∧ e4 ≠ none
            ∧ (handleTarEntry (memOSAs c) nsecSize p dest hdr content fs).1 ≠ none
            ∧ (handleTarEntry (memOSAs c) nsecSize p dest hdr content fs).2 = s4)
        ∨ (e1 = none ∧ e2 = none ∧ e3 = none ∧ e4 = none
            ∧ ((handleTarEntry (memOSAs c) nsecSize p dest hdr content fs).1 = none ↔ e5 = none)
            ∧ (handleTarEntry (memOSAs c) nsecSize p dest hdr content fs).2 = s5)) := by
  have hne1 : hdr.Typeflag ≠ Typeflag.TypeLink := by rcases hreg with h | h <;> simp [h]
  have hne2 : hdr.Typeflag ≠ Typeflag.TypeSymlink := by rcases hreg with h | h <;> simp [h]
  rcases h1 : memOpenFile c p (fileInfoMode hdr) fs with ⟨e1, s1⟩
  rcases h2 : memCopy p content s1 with ⟨e2, s2⟩
  rcases h3 : memSetMeta (mayChown c hdr.Uid hdr.Gid)
      (fun n => { n with uid := hdr.Uid, gid := hdr.Gid }) p s2 with ⟨e3, s3⟩
  rcases h4 : memSetMetaFollow (mayChange c) (fun n => { n with mode := fileInfoMode hdr }) p s3
    with ⟨e4, s4⟩
  rcases h5 : memSetMetaFollow (mayChange c)
      (fun n => { n with
        atime := clampTime nsecSize
          (if hdr.AccessTime < hdr.ModTime then hdr.ModTime else hdr.AccessTime),
        mtime := clampTime nsecSize hdr.ModTime }) p s4 with ⟨e5, s5⟩
  refine ⟨e1, s1, e2, s2, e3, s3, e4, s4, e5, s5, _, _, rfl, h2, h3, h4, h5, ?_⟩
  have hentry1 : ∀ e t, createFile (memOSAs c) p (fileInfoMode hdr) content fs = (some e, t) →
      handleTarEntry (memOSAs c) nsecSize p dest hdr content fs = (some e, t) := by
    intro e t hc
    unfold handleTarEntry
    rcases hreg with h | h <;> simp only [h, hc]
  have hentry2 : ∀ e t1 t2, createFile (memOSAs c) p (fileInfoMode hdr) content fs = (none, t1) →
      setPermissions (memOSAs c) p hdr t1 = (some e, t2) →
      handleTarEntry (memOSAs c) nsecSize p dest hdr content fs = (some e, t2) := by
    intro e t1 t2 hc hp
    unfold handleTarEntry
    rcases hreg with h | h <;> simp only [h, hc, hp]
  have hentry3 : ∀ t1 t2, createFile (memOSAs c) p (fileInfoMode hdr) content fs = (none, t1) →
      setPermissions (memOSAs c) p hdr t1 = (none, t2) →
      handleTarEntry (memOSAs c) nsecSize p dest hdr content fs
        = setMtimeAndAtime (memOSAs c) nsecSize p hdr t2 := by
    intro t1 t2 hc hp
    unfold handleTarEntry
    rcases hreg with h | h <;> simp only [h, hc, hp]
  have htime : setMtimeAndAtime (memOSAs c) nsecSize p hdr s4 = (osErr e5, s5) := by
    unfold setMtimeAndAtime Chtimes
    simp only [memOSAs, hne1, hne2, if_false, ne_eq, not_false_eq_true, if_true]
    have := h5
    simp only [clampTime] at this
    simp only [this]
  cases e1 with
  | some e =>
    have hc : createFile (memOSAs c) p (fileInfoMode hdr) content fs
        = (some Err.errFailedOpen, s1) := by
      unfold createFile
      simp only [memOSAs, h1]
    rw [hentry1 _ _ hc]
    exact Or.inl ⟨by simp, by simp, rfl⟩
  | none =>
    cases e2 with
    | some e =>
      have hc : createFile (memOSAs c) p (fileInfoMode hdr) content fs
          = (some Err.errFailedWrite, s2) := by
        unfold createFile
        simp only [memOSAs, h1, h2]
      rw [hentry1 _ _ hc]
      exact Or.inr (Or.inl ⟨rfl, by simp, by simp, rfl⟩)
    | none =>
      have hc : createFile (memOSAs c) p (fileInfoMode hdr) content fs = (none, s2) := by
        unfold createFile
        simp only [memOSAs, h1, h2]
      cases e3 with
      | some e =>
        have hp : setPermissions (memOSAs c) p hdr s2 = (some (Err.os e), s3) := by
          unfold setPermissions
          simp only [memOSAs, h3]
        rw [hentry2 _ _ _ hc hp]
        exact Or.inr (Or.inr (Or.inl ⟨rfl, rfl, by simp, by simp, rfl⟩))
      | none =>
        cases e4 with
        | some e =>
          have hp : setPermissions (memOSAs c) p hdr s2 = (some (Err.os e), s4) := by
            unfold setPermissions
            simp only [memOSAs, h3, hne1, hne2, if_false, ne_eq, not_false_eq_true, if_true, h4,
              osErr, Option.map_some']
          rw [hentry2 _ _ _ hc hp]
          exact Or.inr (Or.inr (Or.inr (Or.inl ⟨rfl, rfl, rfl, by simp, by simp, rfl⟩)))
        | none =>
          have hp : setPermissions (memOSAs c) p hdr s2 = (none, s4) := by
            unfold setPermissions
            simp only [memOSAs, h3, hne1, hne2, if_false, ne_eq, not_false_eq_true, if_true, h4,
              osErr, Option.map_none']
          rw [hentry3 _ _ hc hp, htime]
          refine Or.inr (Or.inr (Or.inr (Or.inr ⟨rfl, rfl, rfl, rfl, ?_, rfl⟩)))
          cases e5 <;> simp [osErr]

theorem isWritableNode_rootNode : isWritableNode rootNode = false := rfl

/-- A regular-file entry on the in-memory filesystem: what is there stays
openable; when the entry succeeds its path can be opened again by the same
process; and an entry whose path can be opened again succeeds. -/
theorem handleTarEntry_regular_memOSAs (c : Cred) (nsecSize : Nat) (p dest : Path)
    (hdr : Header) (content : List Nat) (fs : MemFS)
    (hreg : hdr.Typeflag = Typeflag.TypeReg ∨ hdr.Typeflag = Typeflag.TypeRegA)
    (hmode : c.euid = 0 ∨ ownerMayWrite (fileInfoMode hdr) = true) :
    keepsObjects c fs (handleTarEntry (memOSAs c) nsecSize p dest hdr content fs).2
    ∧ ((handleTarEntry (memOSAs c) nsecSize p dest hdr content fs).1 = none →
        reopens c (handleTarEntry (memOSAs c) nsecSize p dest hdr content fs).2 p
        ∧ (c.euid = 0 ∨ (hdr.Uid = c.euid ∧ inGroup c hdr.Gid = true)))
    ∧ (reopens c fs p → (c.euid = 0 ∨ (hdr.Uid = c.euid ∧ inGroup c hdr.Gid = true)) →
        (handleTarEntry (memOSAs c) nsecSize p dest hdr content fs).1 = none) := by
  obtain ⟨e1, s1, e2, s2, e3, s3, e4, s4, e5, s5, a, m, h1, h2, h3, h4, h5, hcases⟩ :=
    handleTarEntry_regular_steps c nsecSize p dest hdr content fs hreg
  have k1 : keepsObjects c fs s1 := by
    have := keepsObjects_memOpenFile c p (fileInfoMode hdr) fs
    rwa [h1] at this
  have k2 : keepsObjects c s1 s2 := by
    have := keepsObjects_memCopy c p content s1
    rwa [h2] at this
  have k3 : keepsObjects c s2 s3 := by
    have := keepsObjects_memSetMeta c (mayChown c hdr.Uid hdr.Gid)
      (fun n => { n with uid := hdr.Uid, gid := hdr.Gid }) p s2
      (fun n hn => chown_keeps c hdr.Uid hdr.Gid n hn)
    rwa [h3] at this
  have k4 : keepsObjects c s3 s4 := by
    have := keepsObjects_memSetMetaFollow c (mayChange c)
      (fun n => { n with mode := fileInfoMode hdr }) p s3
      (fun n _ => chmod_keeps c (fileInfoMode hdr) n hmode)
    rwa [h4] at this
  have k5 : keepsObjects c s4 s5 := by
    have := keepsObjects_memSetMetaFollow c (mayChange c)
      (fun n => { n with atime := a, mtime := m }) p s4
      (fun n _ => chtimes_keeps c a m n)
    rwa [h5] at this
  have k02 := keepsObjects_trans c _ _ _ k1 k2
  have k03 := keepsObjects_trans c _ _ _ k02 k3
  have k04 := keepsObjects_trans c _ _ _ k03 k4
  have k05 := keepsObjects_trans c _ _ _ k04 k5
  refine ⟨?_, ?_, ?_⟩
  · rcases hcases with ⟨_, _, hs⟩ | ⟨_, _, _, hs⟩ | ⟨_, _, _, _, hs⟩ | ⟨_, _, _, _, _, hs⟩
      | ⟨_, _, _, _, _, hs⟩
    · rw [hs]; exact k1
    · rw [hs]; exact k02
    · rw [hs]; exact k03
    · rw [hs]; exact k04
    · rw [hs]; exact k05
  · intro hok
    rcases hcases with ⟨_, hne, _⟩ | ⟨_, _, hne, _⟩ | ⟨_, _, _, hne, _⟩ | ⟨_, _, _, _, hne, _⟩
      | ⟨he1, he2, he3, he4, hiff, hs⟩
    · exact absurd hok hne
    · exact absurd hok hne
    · exact absurd hok hne
    · exact absurd hok hne
    · have he5 := hiff.mp hok
      subst he1 he2 he3 he4 he5
      rw [hs]
      -- the file opened
      obtain ⟨q, n1, hq, hn1, hw1, _⟩ := memOpenFile_post c p (fileInfoMode hdr) fs hmode
        (by rw [h1])
      rw [h1] at hn1
      simp only at hn1
      -- the owner set
      obtain ⟨m2, hm2, ha2, _⟩ := memSetMeta_post (mayChown c hdr.Uid hdr.Gid)
        (fun n => { n with uid := hdr.Uid, gid := hdr.Gid }) p s2 (by rw [h3])
      -- the mode set
      obtain ⟨q3, n3, hq3, hn3, ha3, hs4⟩ := memSetMetaFollow_post (mayChange c)
        (fun n => { n with mode := fileInfoMode hdr }) p s3 (by rw [h4])
      rw [h4] at hs4
      simp only at hs4
      have hqq : q3 = q := by
        have := followLinks_keepsObjects c fs s3 k03 (maxSymlinks + 1) p
        rw [hq3, hq] at this
        injection this
      subst hqq
      have hw3 : isWritableNode n3 = true := by
        obtain ⟨n3b, hn3b, hwb, _⟩ :=
          (keepsObjects_trans c _ _ _ k2 k3 (resolve q3)).2 n1 hn1
        rw [hn3] at hn3b
        injection hn3b with heq
        rw [heq]
        exact hwb hw1
      have hroot : resolve q3 ≠ [] := by
        intro h0
        rw [h0] at hn3
        simp only [findNode, if_true, Option.some.injEq] at hn3
        rw [← hn3, isWritableNode_rootNode] at hw3
        exact Bool.noConfusion hw3
      have hn4 : findNode s4 (resolve q3)
          = some { n3 with mode := fileInfoMode hdr } := by
        rw [hs4, findNode_modifyNode_any, if_pos ⟨rfl, hroot⟩, hn3]
        rfl
      obtain ⟨hl, hkw, hkc, hkm⟩ := chmod_keeps c (fileInfoMode hdr) n3 hmode
      obtain ⟨n5, hn5, hw5, hc5, hm5⟩ := (k5 (resolve q3)).2 _ hn4
      obtain ⟨m5, hm5n, _, hmc5, _⟩ :=
        (keepsObjects_trans c _ _ _ (keepsObjects_trans c _ _ _ k3 k4) k5 (resolve p)).2 m2 hm2
      have hchg2 : mayChange c m2 = true := by
        simp only [mayChown, Bool.or_eq_true, Bool.and_eq_true, decide_eq_true_eq] at ha2
        simp only [mayChange, Bool.or_eq_true, decide_eq_true_eq]
        rcases ha2 with h0 | ⟨⟨h, _⟩, _⟩
        · exact Or.inl h0
        · exact Or.inr h
      have hm4w : mayWrite c { n3 with mode := fileInfoMode hdr } = true := by
        by_cases h0 : c.euid = 0
        · simp [mayWrite, h0]
        · have hu : n3.uid = c.euid := by simpa [mayChange, h0] using ha3
          have hmm : ownerMayWrite (fileInfoMode hdr) = true := by
            rcases hmode with h | h
            · exact absurd h h0
            · exact h
          simp only [ownerMayWrite] at hmm
          simp only [mayWrite, h0, decide_False, Bool.false_or, hu, if_true]
          exact hmm
      refine ⟨⟨q3, n5, m5, ?_, hn5, hw5 (hkw hw3), hc5 (hkc ha3), hm5 (hkc ha3) hm4w, hm5n,
        hmc5 hchg2⟩, ?_⟩
      · rw [followLinks_keepsObjects c fs s5 k05]
        exact hq
      · simp only [mayChown, Bool.or_eq_true, Bool.and_eq_true, decide_eq_true_eq] at ha2
        rcases ha2 with h0 | ⟨⟨_, h⟩, hg⟩
        · exact Or.inl h0
        · exact Or.inr ⟨h, hg⟩
  · intro hr hown
    have hr0 := hr
    obtain ⟨q, n, m0, hq, hn, hw, hc, hmw, hm0, hmc⟩ := hr
    have ho := memOpenFile_pre c p q (fileInfoMode hdr) fs n hq hn hw hmw
    rw [h1] at ho
    injection ho with he1 hs1
    subst hs1
    have he2 : e2 = none := by
      have := memCopy_pre p q content s1 n hq hn hw
      rw [h2] at this
      exact this
    have he3 : e3 = none := by
      obtain ⟨q2, n2, m2, _, _, _, _, _, hm2, hmc2⟩ := reopens_keepsObjects c _ _ k2 p hr0
      have hallow : mayChown c hdr.Uid hdr.Gid m2 = true := by
        simp only [mayChange, Bool.or_eq_true, decide_eq_true_eq] at hmc2
        simp only [mayChown, Bool.or_eq_true, Bool.and_eq_true, decide_eq_true_eq]
        rcases hown with h0 | ⟨hu, hg⟩
        · exact Or.inl h0
        · rcases hmc2 with h0 | hu2
          · exact Or.inl h0
          · exact Or.inr ⟨⟨hu2, hu⟩, hg⟩
      have := memSetMeta_pre (mayChown c hdr.Uid hdr.Gid)
        (fun n => { n with uid := hdr.Uid, gid := hdr.Gid }) p s2 m2 hm2 hallow
      rw [h3] at this
      exact this
    have he4 : e4 = none := by
      obtain ⟨q3, n3, m3, hq3, hn3, _, hc3, _, _, _⟩ :=
        reopens_keepsObjects c _ _ (keepsObjects_trans c _ _ _ k2 k3) p hr0
      have := memSetMetaFollow_pre (mayChange c)
        (fun n => { n with mode := fileInfoMode hdr }) p q3 s3 n3 hq3 hn3 hc3
      rw [h4] at this
      exact this
    have he5 : e5 = none := by
      obtain ⟨q4, n4, m4, hq4, hn4, _, hc4, _, _, _⟩ :=
        reopens_keepsObjects c _ _
          (keepsObjects_trans c _ _ _ (keepsObjects_trans c _ _ _ k2 k3) k4) p hr0
      have := memSetMetaFollow_pre (mayChange c)
        (fun n => { n with atime := a, mtime := m }) p q4 s4 n4 hq4 hn4 hc4
      rw [h5] at this
      exact this
    rcases hcases with ⟨hne, _⟩ | ⟨_, hne, _⟩ | ⟨_, _, hne, _⟩ | ⟨_, _, _, hne, _⟩
      | ⟨_, _, _, _, hiff, _⟩
    · exact absurd he1 hne
    · exact absurd he2 hne
    · exact absurd he3 hne
    · exact absurd he4 hne
    · exact hiff.mpr he5

theorem isRegularEntry_entry (dest : Path) (hdr : Header) (content : List Nat)
    (h : isRegularEntry dest (Rec.entry hdr content) = true) :
    (hdr.Typeflag = Typeflag.TypeReg ∨ hdr.Typeflag = Typeflag.TypeRegA)
    ∧ HasPrefix (Base (Join dest hdr.Name)) whiteoutPrefix = false
    ∧ hdr.Typeflag ≠ Typeflag.TypeDir := by
  simp only [isRegularEntry, Bool.and_eq_true, Bool.or_eq_true, decide_eq_true_eq,
    Bool.not_eq_true'] at h
  refine ⟨h.1, h.2, ?_⟩
  rcases h.1 with h1 | h1 <;> simp [h1]

theorem reopenable_entry (c : Cred) (hdr : Header) (content : List Nat)
    (h : reopenable c (Rec.entry hdr content) = true) :
    c.euid = 0 ∨ ownerMayWrite (fileInfoMode hdr) = true := by
  simpa [reopenable] using h

/-- A stream of regular-file entries that unpacks without error leaves every
one of its paths openable again, and what was openable before stays so. -/
theorem unpackLoop_regular_first (c : Cred) (nsecSize fuel : Nat) (dest : Path) (r : List Rec) :
    ∀ (st st2 : UnpackState MemFS),
      (∀ x ∈ r, isRegularEntry dest x = true ∧ reopenable c x = true) →
      unpackLoop (memOSAs c) nsecSize fuel dest r st = some (none, st2) →
      (∀ hdr content, Rec.entry hdr content ∈ r →
          reopens c st2.fs (Join dest hdr.Name)
          ∧ (c.euid = 0 ∨ (hdr.Uid = c.euid ∧ inGroup c hdr.Gid = true)))
      ∧ keepsObjects c st.fs st2.fs
      ∧ st2.dirs = st.dirs := by
  induction r with
  | nil =>
    intro st st2 _ h
    simp only [unpackLoop, Option.some.injEq, Prod.mk.injEq, true_and] at h
    subst h
    exact ⟨fun _ _ hm => by simp at hm, keepsObjects_refl c _, rfl⟩
  | cons x rest ih =>
    intro st st2 hall h
    cases x with
    | readError =>
      have := (hall Rec.readError (List.mem_cons_self _ _)).1
      simp [isRegularEntry] at this
    | entry hdr content =>
      obtain ⟨hreg, hbase, hnd⟩ := isRegularEntry_entry dest hdr content
        (hall _ (List.mem_cons_self _ _)).1
      have hmode := reopenable_entry c hdr content (hall _ (List.mem_cons_self _ _)).2
      obtain ⟨hm1, hm2, _⟩ := handleTarEntry_regular_memOSAs c nsecSize (Join dest hdr.Name) dest
        hdr content st.fs hreg hmode
      unfold unpackLoop at h
      simp only [hbase, Bool.false_eq_true, if_false, hnd] at h
      rcases hte : handleTarEntry (memOSAs c) nsecSize (Join dest hdr.Name) dest hdr content st.fs
        with ⟨_ | e, s1⟩
      · rw [hte] at h hm1 hm2
        simp only at h hm1 hm2
        obtain ⟨ih1, ih2, ih3⟩ := ih _ st2 (fun y hy => hall y (List.mem_cons_of_mem _ hy)) h
        simp only at ih2
        refine ⟨?_, keepsObjects_trans c _ _ _ hm1 ih2, ih3⟩
        intro hdr2 content2 hmem
        rcases List.mem_cons.mp hmem with heq | hin
        · injection heq with h1 h2
          subst h1
          obtain ⟨hre, hown⟩ := hm2 (by trivial)
          exact ⟨reopens_keepsObjects c _ _ ih2 _ hre, hown⟩
        · exact ih1 hdr2 content2 hin
      · rw [hte] at h
        simp at h

/-- A stream of regular-file entries whose paths can all be opened again
unpacks without error. -/
theorem unpackLoop_regular_second (c : Cred) (nsecSize fuel : Nat) (dest : Path)
    (r : List Rec) :
    ∀ (st : UnpackState MemFS),
      (∀ x ∈ r, isRegularEntry dest x = true ∧ reopenable c x = true) →
      (∀ hdr content, Rec.entry hdr content ∈ r →
          reopens c st.fs (Join dest hdr.Name)
          ∧ (c.euid = 0 ∨ (hdr.Uid = c.euid ∧ inGroup c hdr.Gid = true))) →
      ∃ st2, unpackLoop (memOSAs c) nsecSize fuel dest r st = some (none, st2)
        ∧ st2.dirs = st.dirs := by
  induction r with
  | nil =>
    intro st _ _
    exact ⟨st, rfl, rfl⟩
  | cons x rest ih =>
    intro st hall hw
    cases x with
    | readError =>
      have := (hall Rec.readError (List.mem_cons_self _ _)).1
      simp [isRegularEntry] at this
    | entry hdr content =>
      obtain ⟨hreg, hbase, hnd⟩ := isRegularEntry_entry dest hdr content
        (hall _ (List.mem_cons_self _ _)).1
      have hmode := reopenable_entry c hdr content (hall _ (List.mem_cons_self _ _)).2
      obtain ⟨hm1, _, hm3⟩ := handleTarEntry_regular_memOSAs c nsecSize (Join dest hdr.Name) dest
        hdr content st.fs hreg hmode
      have hhere := hw hdr content (List.mem_cons_self _ _)
      have hok := hm3 hhere.1 hhere.2
      unfold unpackLoop
      simp only [hbase, Bool.false_eq_true, if_false, hnd]
      rcases hte : handleTarEntry (memOSAs c) nsecSize (Join dest hdr.Name) dest hdr content st.fs
        with ⟨_ | e, s1⟩
      · rw [hte] at hm1
        simp only at hm1 ⊢
        obtain ⟨st2, h1, h2⟩ := ih
          { fs := s1, unpackedPaths := Join dest hdr.Name :: st.unpackedPaths, dirs := st.dirs }
          (fun y hy => hall y (List.mem_cons_of_mem _ hy))
          (fun hdr2 content2 hin =>
            ⟨reopens_keepsObjects c _ _ hm1 _ (hw hdr2 content2 (List.mem_cons_of_mem _ hin)).1,
             (hw hdr2 content2 (List.mem_cons_of_mem _ hin)).2⟩)
        exact ⟨st2, h1, h2⟩
      · rw [hte] at hok
        simp at hok

/-! ## Whiteouts do not depend on who unpacks -/

theorem walkNames_congr {σ : Type} (o1 o2 : OS σ) (hl : o1.lstat = o2.lstat)
    (fn : Path → Option Errno → σ → Option Err × σ)
    (self : Path → FileInfo → σ → Option (Option Err × σ)) (path : Path) :
    ∀ (names : List (List Char)) (s : σ),
      walkNames o1 fn self path names s = walkNames o2 fn self path names s := by
  intro names
  induction names with
  | nil => intro s; rfl
  | cons name rest ih =>
    intro s
    unfold walkNames
    simp only [hl]
    cases o2.lstat s (Join path name) with
    | error e =>
      simp only
      rcases fn (Join path name) (some e) s with ⟨_ | e1, s1⟩
      · exact ih s1
      · rfl
    | ok fi =>
      simp only
      rcases self (Join path name) fi s with _ | ⟨_ | e1, s1⟩
      · rfl
      · exact ih s1
      · rfl

theorem walk_congr {σ : Type} (o1 o2 : OS σ) (hl : o1.lstat = o2.lstat)
    (hr : o1.readDirNames = o2.readDirNames)
    (fn : Path → Option Errno → σ → Option Err × σ) :
    ∀ (fuel : Nat) (path : Path) (info : FileInfo) (s : σ),
      walk o1 fn fuel path info s = walk o2 fn fuel path info s := by
  intro fuel
  induction fuel with
  | zero => intro path info s; rfl
  | succ n ih =>
    intro path info s
    have hself : walk o1 fn n = walk o2 fn n := by
      funext p i t
      exact ih p i t
    unfold walk
    simp only [hr, hself]
    cases info.isDir with
    | false => rfl
    | true =>
      simp only [Bool.not_true, Bool.false_eq_true, if_false]
      cases o2.readDirNames s path with
      | error e => rfl
      | ok names =>
        simp only
        rcases fn path none s with ⟨_ | e1, s1⟩
        · exact walkNames_congr o1 o2 hl fn _ path names s1
        · rfl

theorem handleWhiteouts_congr {σ : Type} (o1 o2 : OS σ) (hl : o1.lstat = o2.lstat)
    (hr : o1.readDirNames = o2.readDirNames) (hrm : o1.removeAll = o2.removeAll)
    (fuel : Nat) (destPath : Path) (unpackedPaths : List Path) (s : σ) :
    handleWhiteouts o1 fuel destPath unpackedPaths s
      = handleWhiteouts o2 fuel destPath unpackedPaths s := by
  have hfn : walkFn o1 (Dir destPath) unpackedPaths = walkFn o2 (Dir destPath) unpackedPaths := by
    funext p e t
    unfold walkFn
    rw [hrm]
  unfold handleWhiteouts Walk
  simp only [hl, hrm, hfn]
  split
  · cases o2.lstat s (Dir destPath) with
    | error e => rfl
    | ok fi =>
      simp only
      exact walk_congr o1 o2 hl hr _ fuel _ _ s
  · rfl

theorem unpackLoop_whiteouts_congr (c : Cred) (nsecSize fuel : Nat) (dest : Path)
    (r : List Rec) :
    ∀ (st : UnpackState MemFS), (∀ x ∈ r, isWhiteoutEntry dest x = true) →
      unpackLoop (memOSAs c) nsecSize fuel dest r st
        = unpackLoop memOS nsecSize fuel dest r st := by
  induction r with
  | nil => intro st _; rfl
  | cons x rest ih =>
    intro st hall
    cases x with
    | readError => rfl
    | entry hdr content =>
      have hpre : HasPrefix (Base (Join dest hdr.Name)) whiteoutPrefix = true := by
        simpa [isWhiteoutEntry] using hall _ (List.mem_cons_self _ _)
      have hw := handleWhiteouts_congr (memOSAs c) memOS rfl rfl rfl fuel
        (Join dest hdr.Name) st.unpackedPaths st.fs
      simp only [unpackLoop, hpre, if_true, hw]
      rcases handleWhiteouts memOS fuel (Join dest hdr.Name) st.unpackedPaths st.fs
        with _ | ⟨e, s1⟩
      · rfl
      · exact ih _ (fun y hy => hall y (List.mem_cons_of_mem _ hy))

/-! ## Unpacking a stream twice -/

/-- C6 (as amended): on the in-memory filesystem, for a process with any
credentials, when a stream has only regular-file entries that the process can
open for writing again (it is the superuser, or the mode of every entry gives
the owner write permission), or has only whiteout entries (the filesystem
well-formed and the fuel enough for the depth of the tree), and `unpackTar`
succeeds on it, then `unpackTar` on the same stream and the resulting
destination succeeds again. -/
theorem unpackTar_twice_regular_or_whiteouts (c : Cred) (nsecSize fuel : Nat) (dest : Path)
    (r : List Rec) (fs fs1 : MemFS)
    (hall : (∀ x ∈ r, isRegularEntry dest x = true ∧ reopenable c x = true)
      ∨ ((∀ x ∈ r, isWhiteoutEntry dest x = true) ∧ wellFormed fs ∧ enoughFuel fuel [] fs))
    (h1 : unpackTar (memOSAs c) nsecSize fuel r dest fs = some (none, fs1)) :
    ∃ fs2, unpackTar (memOSAs c) nsecSize fuel r dest fs1 = some (none, fs2) := by
  rcases hall with hall | ⟨hall, hwf, hfuel⟩
  · unfold unpackTar at h1
    rcases hl : unpackLoop (memOSAs c) nsecSize fuel dest r
      { fs := fs, unpackedPaths := [], dirs := [] } with _ | ⟨_ | e, st1⟩
    · rw [hl] at h1; simp at h1
    · rw [hl] at h1
      obtain ⟨hw, _, hd⟩ := unpackLoop_regular_first c nsecSize fuel dest r _ st1 hall hl
      simp only at hd
      simp only [hd, changeDirTimes, Option.some.injEq, Prod.mk.injEq, true_and] at h1
      subst h1
      obtain ⟨st2, h2, hd2⟩ := unpackLoop_regular_second c nsecSize fuel dest r
        { fs := st1.fs, unpackedPaths := [], dirs := [] } hall hw
      simp only at hd2
      unfold unpackTar
      rw [h2]
      simp only [hd2, changeDirTimes]
      exact ⟨_, rfl⟩
    · rw [hl] at h1; simp at h1
  · obtain ⟨st1, hl, hd, hsub⟩ := unpackLoop_whiteouts_returns nsecSize fuel dest r
      { fs := fs, unpackedPaths := [], dirs := [] } hall hwf hfuel
    have hinv := unpackLoop_invariant nsecSize fuel dest r _ _ hwf (by simp) hl
    unfold unpackTar at h1
    rw [unpackLoop_whiteouts_congr c nsecSize fuel dest r _ hall, hl] at h1
    simp only at hd
    simp only [hd, changeDirTimes, Option.some.injEq, Prod.mk.injEq, true_and] at h1
    subst h1
    obtain ⟨st2, h2, hd2, _⟩ := unpackLoop_whiteouts_returns nsecSize fuel dest r
      { fs := st1.fs, unpackedPaths := [], dirs := [] } hall hinv.1
      ⟨hfuel.1, fun e he => hfuel.2 e (hsub e he)⟩
    simp only at hd2
    unfold unpackTar
    rw [unpackLoop_whiteouts_congr c nsecSize fuel dest r _ hall, h2]
    simp only [hd2, changeDirTimes]
    exact ⟨_, rfl⟩

/-- C6 (witness): the amended statement for the user 1000 and the stream with
the file `a` of mode 0644 at the root `/dest`. -/
theorem unpackTar_twice_regular_or_whiteouts_witness :
    ∃ fs2, unpackTar (memOSAs { euid := 1000, egid := 1000 }) 8 1
        [Rec.entry { Name := "a".toList, Typeflag := Typeflag.TypeReg, Mode := 0o644,
                     Uid := 1000, Gid := 1000 } [1, 2]]
        "/dest".toList
        [(["dest".toList, "a".toList],
            { kind := Kind.file [1, 2], mode := 0o644, uid := 1000, gid := 1000 }),
         (["dest".toList], { kind := Kind.dir })] = some (none, fs2) :=
  unpackTar_twice_regular_or_whiteouts { euid := 1000, egid := 1000 } 8 1 "/dest".toList
    [Rec.entry { Name := "a".toList, Typeflag := Typeflag.TypeReg, Mode := 0o644,
                 Uid := 1000, Gid := 1000 } [1, 2]]
    [(["dest".toList], { kind := Kind.dir })]
    [(["dest".toList, "a".toList],
        { kind := Kind.file [1, 2], mode := 0o644, uid := 1000, gid := 1000 }),
     (["dest".toList], { kind := Kind.dir })]
    (Or.inl (by decide)) (by rfl)

/-- C6 (counterexample): the stream with the one symlink `l` unpacks into
`/dest` without error, and unpacking it again into the result fails with
`EEXIST`; the stream with the file `d/x` followed by the whiteout of `d`
unpacks without error and fails the second time, where there is no directory
`d`; and for the user 1000 the stream with the one file `a` of mode 0444
unpacks without error and fails the second time, where the file cannot be
opened for writing. -/
theorem unpackTar_twice_fails :
    unpackTar memOS 8 1
        [Rec.entry { Name := "l".toList, Typeflag := Typeflag.TypeSymlink,
                     Linkname := "d".toList } []]
        "/dest".toList [(["dest".toList], { kind := Kind.dir })]
      = some (none,
          [(["dest".toList, "l".toList], { kind := Kind.symlink "d".toList, mode := 0o777 }),
           (["dest".toList], { kind := Kind.dir })])
    ∧ unpackTar memOS 8 1
        [Rec.entry { Name := "l".toList, Typeflag := Typeflag.TypeSymlink,
                     Linkname := "d".toList } []]
        "/dest".toList
        [(["dest".toList, "l".toList], { kind := Kind.symlink "d".toList, mode := 0o777 }),
         (["dest".toList], { kind := Kind.dir })]
      = some (some (Err.os Errno.EEXIST),
          [(["dest".toList, "l".toList], { kind := Kind.symlink "d".toList, mode := 0o777 }),
           (["dest".toList], { kind := Kind.dir })])
    ∧ unpackTar memOS 8 3
        [Rec.entry { Name := "d/x".toList, Typeflag := Typeflag.TypeReg } [1],
         Rec.entry { Name := ".wh.d".toList, Typeflag := Typeflag.TypeReg } []]
        "/dest".toList
        [(["dest".toList], { kind := Kind.dir }),
         (["dest".toList, "d".toList], { kind := Kind.dir })]
      = some (none, [(["dest".toList], { kind := Kind.dir })])
    ∧ unpackTar memOS 8 3
        [Rec.entry { Name := "d/x".toList, Typeflag := Typeflag.TypeReg } [1],
         Rec.entry { Name := ".wh.d".toList, Typeflag := Typeflag.TypeReg } []]
        "/dest".toList [(["dest".toList], { kind := Kind.dir })]
      = some (some Err.errFailedOpen, [(["dest".toList], { kind := Kind.dir })])
    ∧ unpackTar (memOSAs { euid := 1000, egid := 1000 }) 8 1
        [Rec.entry { Name := "a".toList, Typeflag := Typeflag.TypeReg, Mode := 0o444,
                     Uid := 1000, Gid := 1000 } [1, 2]]
        "/dest".toList [(["dest".toList], { kind := Kind.dir })]
      = some (none,
          [(["dest".toList, "a".toList],
              { kind := Kind.file [1, 2], mode := 0o444, uid := 1000, gid := 1000 }),
           (["dest".toList], { kind := Kind.dir })])
    ∧ unpackTar (memOSAs { euid := 1000, egid := 1000 }) 8 1
        [Rec.entry { Name := "a".toList, Typeflag := Typeflag.TypeReg, Mode := 0o444,
                     Uid := 1000, Gid := 1000 } [1, 2]]
        "/dest".toList
        [(["dest".toList, "a".toList],
            { kind := Kind.file [1, 2], mode := 0o444, uid := 1000, gid := 1000 }),
         (["dest".toList], { kind := Kind.dir })]
      = some (some Err.errFailedOpen,
          [(["dest".toList, "a".toList],
              { kind := Kind.file [1, 2], mode := 0o444, uid := 1000, gid := 1000 }),
           (["dest".toList], { kind := Kind.dir })]) := by
  refine ⟨by rfl, by rfl, by rfl, by rfl, by rfl, by rfl⟩

end Tarutil
